import Mathlib

/-!
Shallow embedding of the extraction core of `api/generate.py` (the Japanese
food-label text parser), together with proofs about the claims of the
specification.  Text is modelled as `List Char`; Python regular-expression
matching is modelled by hand-written deterministic backtracking scanners that
reproduce the leftmost-match / greedy / lazy semantics of each concrete
pattern of the source; Python `float` arithmetic in the sodium→salt
conversion is modelled by exact rationals; `unicodedata.normalize("NFKC", ·)`
(a Python standard-library collaborator) is modelled as the character-wise
full-width→half-width fold that is the part of NFKC exercised by this code
base (full-width ASCII block U+FF01–U+FF5E, ideographic space U+3000 and
no-break space U+00A0).
-/

namespace Gen

/-- Code points that Python's `str.strip()` and the `re` module's `\s` treat
as whitespace (ASCII whitespace, the C1/format controls with the whitespace
property, and the Unicode space separators). -/
def pySpace (c : Char) : Bool :=
  let n := c.toNat
  n == 0x20 || n == 0x9 || n == 0xA || n == 0xD || n == 0xB || n == 0xC ||
  n == 0x1C || n == 0x1D || n == 0x1E || n == 0x1F || n == 0x85 || n == 0xA0 ||
  n == 0x1680 || (decide (0x2000 ≤ n) && decide (n ≤ 0x200A)) ||
  n == 0x2028 || n == 0x2029 || n == 0x202F || n == 0x205F || n == 0x3000

/-- ASCII decimal digit (`[0-9]`, and also `\d` on the strings this program
produces). -/
def isDigitC (c : Char) : Bool :=
  decide (0x30 ≤ c.toNat) && decide (c.toNat ≤ 0x39)

/-- ASCII lowercasing, the effect of Python's `str.lower()` /
`re.IGNORECASE` on the alphabets that occur in this program's tables. -/
def toLowerCI (c : Char) : Char :=
  if decide (0x41 ≤ c.toNat) && decide (c.toNat ≤ 0x5A) then
    Char.ofNat (c.toNat + 0x20)
  else c

/-- The characters of the character class of `BULLET_PATTERN`,
`r"^[\\s・\-\*・]+"`: inside the class, `\\` is a literal backslash followed
by a literal letter `s` (not a whitespace escape), so the class is
backslash, `s`, the katakana middle dot, hyphen and asterisk. -/
def bulletChar (c : Char) : Bool :=
  c = '\\' || c = 's' || c = '・' || c = '-' || c = '*'

/-- Both colon forms accepted by the extraction patterns (`[:：]`). -/
def colonChar (c : Char) : Bool := c = ':' || c = '：'

/-- The block-marker class `[■【\[]`. -/
def markerChar (c : Char) : Bool := c = '■' || c = '【' || c = '['

/-- The unit character class of `extract_nutrition_flexible`,
`[a-zA-Zμ％%/\.ーァ-ヶー]`. -/
def unitChar (c : Char) : Bool :=
  let n := c.toNat
  (decide (0x61 ≤ n) && decide (n ≤ 0x7A)) ||
  (decide (0x41 ≤ n) && decide (n ≤ 0x5A)) ||
  n == 0x3BC || n == 0xFF05 || n == 0x25 || n == 0x2F || n == 0x2E ||
  n == 0x30FC || (decide (0x30A1 ≤ n) && decide (n ≤ 0x30F6))

/-- The character-wise core of `unicodedata.normalize("NFKC", ·)` for the
characters this code base manipulates: the full-width ASCII block
U+FF01–U+FF5E folds to U+0021–U+007E, and the ideographic space U+3000 and
no-break space U+00A0 fold to the ASCII space. -/
def nfkcTable : List (Char × Char) :=
  ((List.range 94).map fun i =>
    (Char.ofNat (0xFF01 + i), Char.ofNat (0x21 + i))) ++
  [(Char.ofNat 0x3000, ' '), (Char.ofNat 0xA0, ' ')]

/-- One character of the NFKC model: look the character up in the
folding table, identity elsewhere. -/
def nfkcChar (c : Char) : Char := (nfkcTable.lookup c).getD c

/-- NFKC step of `normalize_text` (`unicodedata.normalize("NFKC", text)`). -/
def nfkcNormalize (t : List Char) : List Char := t.map nfkcChar

/-- `text.replace(a, b)` for single characters. -/
def replaceChar (a b : Char) (t : List Char) : List Char :=
  t.map fun c => if c = a then b else c

/-- `MULTISPACE_PATTERN.sub(" ", ·)` for `r"  +"`: every maximal run of two
or more ASCII spaces becomes a single space.  The scanner carries whether
the previously emitted character was a space, which makes it drop every
space that immediately follows an emitted space — exactly the effect of
replacing each maximal run by one space. -/
def collapseSpacesGo : Bool → List Char → List Char
  | _, [] => []
  | prev, c :: r =>
    if c = ' ' then
      if prev then collapseSpacesGo true r else ' ' :: collapseSpacesGo true r
    else c :: collapseSpacesGo false r

def collapseSpaces (t : List Char) : List Char := collapseSpacesGo false t

/-- `MULTINEWLINE_PATTERN.sub("\n\n", ·)` for `r"\n{3,}"`: every maximal run
of three or more newlines becomes exactly two.  The scanner counts the
newlines of the current run (saturating at 2) and drops the third and
following ones. -/
def collapseNewlinesGo : Nat → List Char → List Char
  | _, [] => []
  | k, c :: r =>
    if c = '\n' then
      if 2 ≤ k then collapseNewlinesGo k r
      else '\n' :: collapseNewlinesGo (k + 1) r
    else c :: collapseNewlinesGo 0 r

def collapseNewlines (t : List Char) : List Char := collapseNewlinesGo 0 t

/-- Remove the trailing run of Python whitespace (the right half of
`str.strip()`). -/
def stripEnd : List Char → List Char
  | [] => []
  | c :: r =>
    let r' := stripEnd r
    if r' = [] && pySpace c then [] else c :: r'

/-- Python `str.strip()`: drop leading and trailing Unicode whitespace. -/
def pyStrip (t : List Char) : List Char := stripEnd (t.dropWhile pySpace)

/-- `normalize_text` of the source: NFKC, fold ideographic space, tab and
full-width colon, collapse space runs, collapse newline runs, strip. -/
def normalize_text (t : List Char) : List Char :=
  pyStrip (collapseNewlines (collapseSpaces (replaceChar '：' ':'
    (replaceChar '\t' ' ' (replaceChar '　' ' ' (nfkcNormalize t))))))

/-- `HTML_TAG_PATTERN.sub("", ·)` for `r"<[^>]+>"`: at each `<`, if at least
one non-`>` character is followed by a `>`, the whole bracketed run is
deleted and scanning resumes after the `>`; otherwise the `<` is kept.
Fuel-driven because a deleted tag skips more than one character. -/
def htmlStripAux : Nat → List Char → List Char
  | 0, l => l
  | _ + 1, [] => []
  | fuel + 1, c :: rest =>
    if c = '<' then
      let inner := rest.takeWhile (fun d => !(d = '>'))
      let after := rest.dropWhile (fun d => !(d = '>'))
      match after with
      | '>' :: rest' =>
        if inner = [] then c :: htmlStripAux fuel rest
        else htmlStripAux fuel rest'
      | _ => c :: htmlStripAux fuel rest
    else c :: htmlStripAux fuel rest

def htmlStrip (t : List Char) : List Char := htmlStripAux (t.length + 1) t

/-- `BULLET_PATTERN.sub("", ·)` with `re.MULTILINE`: the pattern is anchored
at each line start, so at the start of every line the maximal run of
characters of `bulletChar` is removed (dropped one at a time while the
anchor state persists). -/
def bulletSubGo : Bool → List Char → List Char
  | _, [] => []
  | atStart, c :: rest =>
    if atStart && bulletChar c then bulletSubGo true rest
    else if c = '\n' then '\n' :: bulletSubGo true rest
    else c :: bulletSubGo false rest

def bulletSub (t : List Char) : List Char := bulletSubGo true t

/-- `text.replace(pat, rep)` for multi-character `pat`: leftmost,
non-overlapping.  Fuel-driven because a replacement skips `pat.length`
characters. -/
def replaceListAux (pat rep : List Char) : Nat → List Char → List Char
  | 0, l => l
  | _ + 1, [] => []
  | fuel + 1, c :: rest =>
    if pat.isPrefixOf (c :: rest) then
      rep ++ replaceListAux pat rep fuel (List.drop (pat.length - 1) rest)
    else c :: replaceListAux pat rep fuel rest

def replaceList (pat rep t : List Char) : List Char :=
  replaceListAux pat rep (t.length + 1) t

/-- `preprocess_extreme_cases`: strip HTML tags, strip leading bullet runs
per line, fold the long unit spellings. -/
def preprocess_extreme_cases (t : List Char) : List Char :=
  replaceList "キロカロリー".data "kcal".data
    (replaceChar 'ｇ' 'g'
      (replaceList "グラム".data "g".data (bulletSub (htmlStrip t))))

/-- `text.split(sep)` for a single separator character. -/
def splitOnC (sep : Char) : List Char → List (List Char)
  | [] => [[]]
  | c :: rest =>
    let r := splitOnC sep rest
    if c = sep then [] :: r
    else (c :: r.headD []) :: r.tail

/-- `sep.join(pieces)`. -/
def joinWith (sep : List Char) : List (List Char) → List Char
  | [] => []
  | [l] => l
  | l :: ls => l ++ sep ++ joinWith sep ls

/-- `re.match(r"^[^:：]+[:：]", line)` of `merge_broken_lines` succeeds iff
the line's first character is not a colon and a colon occurs later. -/
def hasLabelColon : List Char → Bool
  | [] => false
  | c :: rest => !colonChar c && rest.any colonChar

/-- A look-ahead line of `merge_broken_lines` is consumed as a value line
iff its stripped form is non-empty, does not open a new `■`/`【` block and
does not carry `label:` syntax. -/
def isValueLine (l : List Char) : Bool :=
  match pyStrip l with
  | [] => false
  | c :: rest => !(c = '■') && !(c = '【') && !hasLabelColon (c :: rest)

/-- The line loop of `merge_broken_lines`: every emitted line is stripped;
a stripped non-empty line without a half-width colon absorbs the following
value lines (stripped, space-joined, attached after a `:`), consuming them.
Fuel-driven because absorbing skips lines. -/
def mergeLinesGo : Nat → List (List Char) → List (List Char)
  | 0, ls => ls
  | _ + 1, [] => []
  | fuel + 1, l :: rest =>
    let line := pyStrip l
    if line = [] then line :: mergeLinesGo fuel rest
    else if !line.contains ':' && !rest.isEmpty then
      let vals := (rest.takeWhile isValueLine).map pyStrip
      if vals = [] then line :: mergeLinesGo fuel rest
      else (line ++ ':' :: joinWith [' '] vals) :: mergeLinesGo fuel (rest.drop vals.length)
    else line :: mergeLinesGo fuel rest

/-- `merge_broken_lines` of the source. -/
def merge_broken_lines (t : List Char) : List Char :=
  joinWith ['\n'] (mergeLinesGo (splitOnC '\n' t).length (splitOnC '\n' t))

/-! ### Regular-expression scanners

Each Python pattern of the source is modelled by a deterministic scanner
that reproduces its backtracking semantics: greedy `\s*` runs take a
maximal munch (the characters that follow them in each pattern are never
whitespace, except before a lazy `(.+?)`, where the whitespace is given
back one character at a time on capture failure — `btWs`); lazy `(.+?)`
captures grow from one character until the given look-ahead holds. -/

/-- Strip a case-insensitive literal occurrence of `pat` from the front. -/
def ciStripPrefix : List Char → List Char → Option (List Char)
  | [], t => some t
  | _ :: _, [] => none
  | p :: ps, c :: cs =>
    if toLowerCI p = toLowerCI c then ciStripPrefix ps cs else none

/-- Lazy `(.+?)` with `re.DOTALL`: the shortest non-empty capture whose end
satisfies the look-ahead; returns the capture and the rest. -/
def lazyCapD (la : List Char → Bool) : List Char → Option (List Char × List Char)
  | [] => none
  | c :: rest =>
    if la rest then some ([c], rest)
    else (lazyCapD la rest).map fun p => (c :: p.1, p.2)

/-- Lazy `(.+?)` without `re.DOTALL` (`.` does not match a newline). -/
def lazyCapL (la : List Char → Bool) : List Char → Option (List Char × List Char)
  | [] => none
  | c :: rest =>
    if c = '\n' then none
    else if la rest then some ([c], rest)
    else (lazyCapL la rest).map fun p => (c :: p.1, p.2)

/-- Backtracking driver for greedy `\s*` followed by a capture: first try
the capture after the maximal whitespace munch, then give whitespace back
one character at a time (`rws` is the reversed munched run). -/
def btWs (cap : List Char → Option (List Char × List Char)) :
    List Char → List Char → Option (List Char × List Char)
  | [], rest => cap rest
  | w :: rws, rest =>
    match cap rest with
    | some r => some r
    | none => btWs cap rws (w :: rest)

/-- `\s*` then a capture, with give-back backtracking. -/
def wsCapture (cap : List Char → Option (List Char × List Char))
    (t : List Char) : Option (List Char × List Char) :=
  btWs cap (t.takeWhile pySpace).reverse (t.dropWhile pySpace)

/-- Look-ahead `(?=\n[■【\[]|【栄養|※|$)` of field pattern 1 (`$` without
`re.MULTILINE` also matches just before a final newline). -/
def fieldLA : List Char → Bool
  | [] => true
  | ['\n'] => true
  | '\n' :: d :: _ => markerChar d
  | '※' :: _ => true
  | '【' :: '栄' :: '養' :: _ => true
  | _ => false

/-- Look-ahead `(?=\n|$)` of the line-form patterns. -/
def lineLA : List Char → Bool
  | [] => true
  | c :: _ => c = '\n'

/-- Field pattern 1, `[■【\[]?\s*VAR\s*[:：]\s*(.+?)(?=\n[■【\[]|【栄養|※|$)`
(`re.IGNORECASE | re.DOTALL`), attempted at one position.  The optional
marker is consumed iff present (no variation begins with a marker
character), and the match returns `group(1).strip()`. -/
def matchFieldP1 (var t0 : List Char) : Option (List Char) :=
  let t1 := match t0 with
    | c :: rest => if markerChar c then rest else t0
    | [] => t0
  match ciStripPrefix var (t1.dropWhile pySpace) with
  | none => none
  | some t3 =>
    match t3.dropWhile pySpace with
    | c :: t5 =>
      if colonChar c then (wsCapture (lazyCapD fieldLA) t5).map fun p => pyStrip p.1
      else none
    | [] => none

/-- `re.search`: try the matcher at every position, leftmost success wins. -/
def searchAt (m : List Char → Option α) : List Char → Option α
  | [] => m []
  | c :: rest =>
    match m (c :: rest) with
    | some v => some v
    | none => searchAt m rest

/-- Field pattern 2, `^\s*VAR\s*[:：]\s*(.+?)(?=\n|$)`
(`re.IGNORECASE | re.MULTILINE`), attempted at one line start. -/
def matchFieldP2 (var t0 : List Char) : Option (List Char) :=
  match ciStripPrefix var (t0.dropWhile pySpace) with
  | none => none
  | some t2 =>
    match t2.dropWhile pySpace with
    | c :: t4 =>
      if colonChar c then (wsCapture (lazyCapL lineLA) t4).map fun p => pyStrip p.1
      else none
    | [] => none

/-- Try a matcher at the positions following each newline. -/
def goLines (m : List Char → Option α) : List Char → Option α
  | [] => none
  | c :: rest =>
    if c = '\n' then
      match m rest with
      | some v => some v
      | none => goLines m rest
    else goLines m rest

/-- `re.search` with `re.MULTILINE` for a `^`-anchored pattern: try the
matcher at the start of the text and after every newline. -/
def searchLines (m : List Char → Option α) (t : List Char) : Option α :=
  match m t with
  | some v => some v
  | none => goLines m t

/-- `\s*\n\s*` then capture, for field pattern 3: the first greedy `\s*`
binds up to the rightmost newline of the whitespace run that admits a
capture; the list argument is the reversed run, `b` the part already given
back (in order). -/
def p3Scan (rest' : List Char) : List Char → List Char → Option (List Char × List Char)
  | [], _ => none
  | c :: rb, b =>
    if c = '\n' then
      match btWs (lazyCapL lineLA) b.reverse rest' with
      | some r => some r
      | none => p3Scan rest' rb (c :: b)
    else p3Scan rest' rb (c :: b)

/-- Field pattern 3, `VAR\s*\n\s*(.+?)(?=\n|$)` (`re.IGNORECASE`),
attempted at one position. -/
def matchFieldP3 (var t0 : List Char) : Option (List Char) :=
  match ciStripPrefix var t0 with
  | none => none
  | some t1 =>
    (p3Scan (t1.dropWhile pySpace) (t1.takeWhile pySpace).reverse []).map
      fun p => pyStrip p.1

/-- The three per-variation strategies of `extract_field_value`, in order. -/
def tryFieldVariation (t var : List Char) : Option (List Char) :=
  match searchAt (matchFieldP1 var) t with
  | some v => some v
  | none =>
    match searchLines (matchFieldP2 var) t with
    | some v => some v
    | none => searchAt (matchFieldP3 var) t

def tryFieldVariations (t : List Char) : List (List Char) → Option (List Char)
  | [] => none
  | v :: vs =>
    match tryFieldVariation t v with
    | some r => some r
    | none => tryFieldVariations t vs

/-- `FIELD_VARIATIONS` of the source, in declaration order. -/
def FIELD_VARIATIONS : List (List Char × List (List Char)) :=
  [("product_name".data,
    ["商品名".data, "品名".data, "製品名".data, "名前".data, "商品".data, "品目".data,
     "product name".data, "product".data, "name".data, "商品の名前".data]),
   ("product_type".data,
    ["名称".data, "品種".data, "種類".data, "type".data, "分類".data, "品目名".data,
     "商品の種類".data, "商品種別".data, "category".data]),
   ("ingredients".data,
    ["原材料".data, "原材料名".data, "原料".data, "成分".data, "ingredients".data,
     "使用原材料".data, "材料".data, "配合成分".data, "原材料等".data]),
   ("content".data,
    ["内容量".data, "容量".data, "量".data, "volume".data, "content".data, "内容".data,
     "正味量".data, "net weight".data, "入数".data, "個数".data]),
   ("expiry".data,
    ["賞味期限".data, "消費期限".data, "期限".data, "expiry".data, "best before".data,
     "賞味".data, "消費".data, "有効期限".data, "保存期間".data]),
   ("storage".data,
    ["保存方法".data, "保管方法".data, "保存".data, "storage".data,
     "貯蔵方法".data, "取扱方法".data, "保存の方法".data, "保管の方法".data]),
   ("seller".data,
    ["販売者".data, "売主".data, "販売".data, "seller".data, "販売元".data, "販売業者".data,
     "販売会社".data, "distributor".data, "発売元".data, "販売店".data]),
   ("manufacturer".data,
    ["製造者".data, "製造元".data, "製造".data, "manufacturer".data, "製造業者".data,
     "製造会社".data, "maker".data, "メーカー".data, "製造場所".data]),
   ("processor".data,
    ["加工者".data, "加工元".data, "加工".data, "processor".data, "加工業者".data,
     "加工会社".data, "加工場所".data]),
   ("importer".data,
    ["輸入者".data, "輸入元".data, "輸入".data, "importer".data, "輸入業者".data,
     "輸入会社".data, "輸入元会社".data])]

/-- `NUTRITION_VARIATIONS` of the source, in declaration order. -/
def NUTRITION_VARIATIONS : List (List Char × List (List Char)) :=
  [("energy".data,
    ["エネルギー".data, "energy".data, "カロリー".data, "calorie".data, "kcal".data,
     "熱量".data, "calories".data, "エネルギー量".data]),
   ("protein".data,
    ["たんぱく質".data, "タンパク質".data, "蛋白質".data, "protein".data,
     "たんぱく".data, "タンパク".data, "プロテイン".data]),
   ("fat".data,
    ["脂質".data, "脂肪".data, "fat".data, "lipid".data, "油脂".data, "脂肪分".data]),
   ("carbs".data,
    ["炭水化物".data, "糖質".data, "carbohydrate".data, "carbs".data, "炭水化物量".data]),
   ("salt".data,
    ["食塩相当量".data, "食塩".data, "塩分".data, "salt".data]),
   ("sodium".data,
    ["ナトリウム".data, "ナトリウム量".data, "sodium".data, "Na".data]),
   ("sugar".data,
    ["糖質".data, "糖類".data, "sugar".data, "sugars".data, "炭水化物(糖質)".data]),
   ("fiber".data,
    ["食物繊維".data, "繊維".data, "fiber".data, "dietary fiber".data, "繊維質".data])]

/-- `extract_field_value` of the source, for one canonical field key. -/
def extract_field_value (t key : List Char) : Option (List Char) :=
  tryFieldVariations t ((FIELD_VARIATIONS.lookup key).getD [])

/-- The separator class `[:：\s]` of the nutrition patterns. -/
def sepChar (c : Char) : Bool := pySpace c || colonChar c

/-- The numeric capture `([0-9]+(?:\.[0-9]+)?)`: a maximal digit run with
an optional fraction (taken only when a digit follows the dot). -/
def numCapture (t : List Char) : Option (List Char × List Char) :=
  if t.takeWhile isDigitC = [] then none
  else
    match t.dropWhile isDigitC with
    | '.' :: r2 =>
      if r2.takeWhile isDigitC = [] then
        some (t.takeWhile isDigitC, '.' :: r2)
      else
        some (t.takeWhile isDigitC ++ '.' :: r2.takeWhile isDigitC,
          r2.dropWhile isDigitC)
    | r1 => some (t.takeWhile isDigitC, r1)

/-- Nutrition pattern 1, `VAR\s*[:：\s]+NUM\s*UNIT?`, at one position.  The
combined `\s*[:：\s]+` is a maximal non-empty separator run (digits are
never separators, so no give-back can succeed).  Returns (number, unit);
an absent unit group is the empty list. -/
def matchNutriP1 (var t0 : List Char) : Option (List Char × List Char) :=
  match ciStripPrefix var t0 with
  | none => none
  | some t1 =>
    if t1.takeWhile sepChar = [] then none
    else
      match numCapture (t1.dropWhile sepChar) with
      | none => none
      | some (num, t3) => some (num, (t3.dropWhile pySpace).takeWhile unitChar)

/-- Nutrition pattern 2, `VAR\s*[（(]\s*NUM\s*UNIT?\s*[）)]`, at one
position. -/
def matchNutriP2 (var t0 : List Char) : Option (List Char × List Char) :=
  match ciStripPrefix var t0 with
  | none => none
  | some t1 =>
    match t1.dropWhile pySpace with
    | c :: t3 =>
      if c = '（' || c = '(' then
        match numCapture (t3.dropWhile pySpace) with
        | none => none
        | some (num, t5) =>
          let t6 := t5.dropWhile pySpace
          match (t6.dropWhile unitChar).dropWhile pySpace with
          | d :: _ =>
            if d = '）' || d = ')' then some (num, t6.takeWhile unitChar) else none
          | [] => none
      else none
    | [] => none

/-- Nutrition pattern 3, `VAR\s*[:：\s]+NUM\s*$` (no `re.MULTILINE`, so `$`
is the end of the text or just before a final newline): succeeds iff
everything after the number is whitespace. -/
def matchNutriP3 (var t0 : List Char) : Option (List Char × List Char) :=
  match ciStripPrefix var t0 with
  | none => none
  | some t1 =>
    if t1.takeWhile sepChar = [] then none
    else
      match numCapture (t1.dropWhile sepChar) with
      | none => none
      | some (num, t3) => if t3.all pySpace then some (num, []) else none

/-- Python's `pat in text` substring test. -/
def isSubstr (pat : List Char) : List Char → Bool
  | [] => pat.isEmpty
  | c :: rest => pat.isPrefixOf (c :: rest) || isSubstr pat rest

/-- The unit canonicalization of `extract_nutrition_flexible`: spellings
containing `キロカロリー`/`ｋｃａｌ`/`kcal` become `kcal`; `g` and `mg`
(case-insensitively, full- or half-width) are kept as the short form;
anything else passes through verbatim. -/
def canonUnit (u : List Char) : List Char :=
  let un := pyStrip u
  let ul := un.map toLowerCI
  if isSubstr "キロカロリー".data un || isSubstr "ｋｃａｌ".data un ||
      isSubstr "kcal".data ul then "kcal".data
  else if ul = "ｇ".data || ul = "g".data then "g".data
  else if ul = "ｍｇ".data || ul = "mg".data then "mg".data
  else un

/-- `f"{number}{unit_normalized}"` (with the stripped captures). -/
def mkNutriValue (num u : List Char) : List Char := pyStrip num ++ canonUnit u

/-- The three numeric patterns of one nutrition variation, in order. -/
def tryNutriVariation (t var : List Char) : Option (List Char) :=
  match searchAt (matchNutriP1 var) t with
  | some p => some (mkNutriValue p.1 p.2)
  | none =>
    match searchAt (matchNutriP2 var) t with
    | some p => some (mkNutriValue p.1 p.2)
    | none =>
      match searchAt (matchNutriP3 var) t with
      | some p => some (mkNutriValue p.1 p.2)
      | none => none

def tryNutriVariations (t : List Char) : List (List Char) → Option (List Char)
  | [] => none
  | v :: vs =>
    match tryNutriVariation t v with
    | some r => some r
    | none => tryNutriVariations t vs

def extract_nutrition_go (t : List Char) :
    List (List Char × List (List Char)) → List (List Char × List Char)
  | [] => []
  | (key, vars) :: rest =>
    match tryNutriVariations t vars with
    | some v => (key, v) :: extract_nutrition_go t rest
    | none => extract_nutrition_go t rest

/-- `extract_nutrition_flexible` of the source: first successful
(variation, pattern) per key, keys in declaration order. -/
def extract_nutrition_flexible (t : List Char) : List (List Char × List Char) :=
  extract_nutrition_go t NUTRITION_VARIATIONS

/-- `re.search(r"(\d+\.?\d*)", ·)`: the number starting at the first digit
(the optional dot is consumed even when no digit follows it). -/
def leadingNumber : List Char → Option (List Char)
  | [] => none
  | c :: rest =>
    if isDigitC c then
      let ds := (c :: rest).takeWhile isDigitC
      match (c :: rest).dropWhile isDigitC with
      | '.' :: r2 => some (ds ++ '.' :: r2.takeWhile isDigitC)
      | _ => some ds
    else leadingNumber rest

def digitsVal (l : List Char) : Nat :=
  l.foldl (fun a c => a * 10 + (c.toNat - 0x30)) 0

/-- The exact decimal value of a captured numeral, as a scaled natural
`(n, e)` denoting `n / 10 ^ e`; `float(·)` is its correctly rounded
binary64 image (`floatOfNum`). -/
def parseDecimal (l : List Char) : Nat × Nat :=
  let ds := l.takeWhile isDigitC
  match l.dropWhile isDigitC with
  | '.' :: fs => (digitsVal ds * 10 ^ fs.length + digitsVal fs, fs.length)
  | _ => (digitsVal ds, 0)

/-- Round `m / d` (`d` positive) to the nearest natural, ties to even (the
rounding of Python's `format`). -/
def roundHalfEvenN (m d : Nat) : Nat :=
  let q := m / d
  let r := m % d
  if 2 * r < d then q
  else if d < 2 * r then q + 1
  else if q % 2 = 0 then q else q + 1

def digitChar (n : Nat) : Char :=
  ['0', '1', '2', '3', '4', '5', '6', '7', '8', '9'].getD (n % 10) '0'

def natDigitsAux : Nat → Nat → List Char → List Char
  | 0, _, acc => acc
  | fuel + 1, n, acc =>
    if n < 10 then digitChar n :: acc
    else natDigitsAux fuel (n / 10) (digitChar n :: acc)

/-- Decimal digits of a natural number. -/
def natDigits (n : Nat) : List Char := natDigitsAux (n + 1) n []

/-- Halve `p / q` (doubling `q`) until it is below `2 ^ 53`, tracking the
base-2 exponent; the fuel `p` bounds the iteration count, so the loop
always runs to its guard. -/
def dblUp : Nat → Nat × Nat × Int → Nat × Nat × Int
  | 0, st => st
  | f + 1, (p, q, s) =>
    if 2 ^ 53 * q ≤ p then dblUp f (p, 2 * q, s + 1) else (p, q, s)

/-- Double `p / q` until it reaches `2 ^ 52`, tracking the base-2 exponent;
for `p ≥ 1` at most `52 + log2 q` steps are needed, so fuel `q + 60`
always reaches the guard. -/
def dblDown : Nat → Nat × Nat × Int → Nat × Nat × Int
  | 0, st => st
  | f + 1, (p, q, s) =>
    if p < 2 ^ 52 * q then dblDown f (2 * p, q, s - 1) else (p, q, s)

/-- Round the non-negative rational `(p / q) * 2 ^ e` to the nearest IEEE
754 binary64 value, ties to even: `none` is overflow to `+inf`,
`some (m, s)` the finite value `m * 2 ^ s` with `m < 2 ^ 53` (subnormal
results land at `s = -1074`, possibly with `m = 0` on underflow). -/
def roundToDbl (p q : Nat) (e : Int) : Option (Nat × Int) :=
  if p = 0 ∨ q = 0 then some (0, 0)
  else
    match dblDown (q + 60) (dblUp p (p, q, e)) with
    | (p1, q1, s) =>
      if s < -1074 then
        some (roundHalfEvenN p1 (q1 * 2 ^ (-1074 - s).toNat), -1074)
      else
        if roundHalfEvenN p1 q1 = 2 ^ 53 then
          if (972 : Int) ≤ s + 1 then none else some (2 ^ 52, s + 1)
        else
          if (972 : Int) ≤ s then none else some (roundHalfEvenN p1 q1, s)

/-- `float(·)` of a captured decimal numeral: CPython converts the exact
decimal value to the nearest binary64 (`strtod` is correctly rounded),
overflowing to `inf`. -/
def floatOfNum (numStr : List Char) : Option (Nat × Int) :=
  roundToDbl (parseDecimal numStr).1 (10 ^ (parseDecimal numStr).2) 0

/-- The binary64 nearest the literal `2.54` of `convert_sodium_to_salt`
(the value `5719571526760530 * 2 ^ (-51)`). -/
def dbl254 : Option (Nat × Int) := roundToDbl 254 100 0

/-- Binary64 multiplication of non-negative values, correctly rounded (the
`inf * 0` NaN case is unreachable here: one factor is always the non-zero
constant `2.54`). -/
def dmul : Option (Nat × Int) → Option (Nat × Int) → Option (Nat × Int)
  | none, _ => none
  | _, none => none
  | some (m1, e1), some (m2, e2) =>
    if m1 = 0 ∨ m2 = 0 then some (0, 0)
    else roundToDbl (m1 * m2) 1 (e1 + e2)

/-- Binary64 division by a positive integer, correctly rounded. -/
def ddivN : Option (Nat × Int) → Nat → Option (Nat × Int)
  | none, _ => none
  | some (m, e), n => if m = 0 then some (0, 0) else roundToDbl m n e

/-- `f"{x:.1f}"` for a non-negative binary64: CPython formats the exact
binary value of the double, rounded to one decimal with ties to even
(correctly rounded `dtoa`); infinity prints `inf`. -/
def fmt1 : Option (Nat × Int) → List Char
  | none => "inf".data
  | some (m, e) =>
    let r := if 0 ≤ e then m * 2 ^ e.toNat * 10
             else roundHalfEvenN (m * 10) (2 ^ (-e).toNat)
    natDigits (r / 10) ++ '.' :: [digitChar (r % 10)]

/-- The binary64 salt value of `convert_sodium_to_salt`:
`float(num) * 2.54 / 1000` (when the lower-cased sodium value contains
`mg`, or contains no `g` at all) or `float(num) * 2.54` (when it contains
`g` but not `mg`), each operation correctly rounded. -/
def sodiumDbl (sodium_str numStr : List Char) : Option (Nat × Int) :=
  let v := dmul (floatOfNum numStr) dbl254
  let sl := sodium_str.map toLowerCI
  if isSubstr "mg".data sl then ddivN v 1000
  else if isSubstr "g".data sl then v
  else ddivN v 1000

/-- `convert_sodium_to_salt` of the source: when `salt` is absent and
`sodium` present, parse the leading number of the sodium value, scale by
2.54/1000 (`mg` or no `g` found) or 2.54 (`g` found), and append the salt
entry formatted to one decimal with a `g` suffix. -/
def convert_sodium_to_salt (nutrition : List (List Char × List Char)) :
    List (List Char × List Char) :=
  if (nutrition.lookup "salt".data).isNone then
    match nutrition.lookup "sodium".data with
    | some sodium_str =>
      match leadingNumber sodium_str with
      | some numStr =>
        nutrition ++ [("salt".data, fmt1 (sodiumDbl sodium_str numStr) ++ "g".data)]
      | none => nutrition
    | none => nutrition
  else nutrition

/-- Look-ahead `(?=\n[■【\[]|【|※|$)` of `FIELD_BLOCK_PATTERN`. -/
def blockLA : List Char → Bool
  | [] => true
  | ['\n'] => true
  | '\n' :: d :: _ => markerChar d
  | '※' :: _ => true
  | '【' :: _ => true
  | _ => false

/-- The `(.+?)\s*[:：]\s*(.+?)(LA)` tail of `FIELD_BLOCK_PATTERN`: the lazy
label grows until a (maximally munched) whitespace run followed by a colon
admits a successful value capture; returns (label, value, rest). -/
def blockTail : List Char → Option (List Char × List Char × List Char)
  | [] => none
  | c :: rest =>
    let attempt : Option (List Char × List Char) :=
      match rest.dropWhile pySpace with
      | d :: t2 => if colonChar d then wsCapture (lazyCapD blockLA) t2 else none
      | [] => none
    match attempt with
    | some (v, r) => some ([c], v, r)
    | none => (blockTail rest).map fun p => (c :: p.1, p.2)

/-- Leading `\s*` of `FIELD_BLOCK_PATTERN` with give-back backtracking into
the lazy label. -/
def btBlock : List Char → List Char → Option (List Char × List Char × List Char)
  | [], rest => blockTail rest
  | w :: rws, rest =>
    match blockTail rest with
    | some r => some r
    | none => btBlock rws (w :: rest)

def matchBlockCore (t : List Char) : Option (List Char × List Char × List Char) :=
  btBlock (t.takeWhile pySpace).reverse (t.dropWhile pySpace)

/-- `FIELD_BLOCK_PATTERN` at one position: the optional greedy marker is
tried consumed first, then unconsumed (the lazy label can itself match a
marker character). -/
def matchBlockAt : List Char → Option (List Char × List Char × List Char)
  | [] => none
  | c :: rest =>
    if markerChar c then
      match matchBlockCore rest with
      | some r => some r
      | none => matchBlockCore (c :: rest)
    else matchBlockCore (c :: rest)

def searchBlock : List Char → Option (List Char × List Char × List Char)
  | [] => none
  | c :: rest =>
    match matchBlockAt (c :: rest) with
    | some r => some r
    | none => searchBlock rest

/-- `FIELD_BLOCK_PATTERN.finditer`: leftmost matches, scanning resuming at
each match end.  Fuel-driven (every match consumes at least one
character). -/
def finditerBlocks : Nat → List Char → List (List Char × List Char)
  | 0, _ => []
  | fuel + 1, t =>
    match searchBlock t with
    | none => []
    | some (lab, v, rest) => (lab, v) :: finditerBlocks fuel rest

def fieldBlockMatches (t : List Char) : List (List Char × List Char) :=
  finditerBlocks (t.length + 1) t

/-- `ALL_KNOWN_FIELD_NAMES` of the source: the lower-cased union of all
field and nutrition variations. -/
def ALL_KNOWN_FIELD_NAMES : List (List Char) :=
  ((FIELD_VARIATIONS.foldr (fun p acc => p.2 ++ acc) ([] : List (List Char))) ++
   (NUTRITION_VARIATIONS.foldr (fun p acc => p.2 ++ acc) ([] : List (List Char)))).map
    (·.map toLowerCI)

/-- Python `dict` assignment `d[k] = v`: update in place when the key
exists (keeping its position), else append. -/
def dictInsert (k v : List Char) (d : List (List Char × List Char)) :
    List (List Char × List Char) :=
  if (d.lookup k).isSome then d.map fun p => if p.1 = k then (p.1, v) else p
  else d ++ [(k, v)]

/-- `extract_unknown_fields` of the source. -/
def extract_unknown_fields (t : List Char) : List (List Char × List Char) :=
  (fieldBlockMatches t).foldl
    (fun acc p =>
      let nm := pyStrip p.1
      if nm = [] then acc
      else if ALL_KNOWN_FIELD_NAMES.contains (nm.map toLowerCI) then acc
      else if 20 ≤ nm.length then acc
      else dictInsert nm (pyStrip p.2) acc)
    []

/-- `$` of the allergen patterns (no `re.MULTILINE`). -/
def dollarLA : List Char → Bool
  | [] => true
  | ['\n'] => true
  | _ => false

/-- `※(.+?)$` (`re.DOTALL`) at one position. -/
def matchAllergenStar : List Char → Option (List Char)
  | [] => none
  | c :: rest =>
    if c = '※' then (lazyCapD dollarLA rest).map fun p => pyStrip p.1
    else none

/-- `KW[:：\s]+(.+?)$` (`re.DOTALL | re.IGNORECASE`) at one position; the
non-empty separator run gives back all but its first character when the
capture needs it. -/
def matchAllergenSep (kw t0 : List Char) : Option (List Char) :=
  match ciStripPrefix kw t0 with
  | none => none
  | some t1 =>
    let sep := t1.takeWhile sepChar
    if sep = [] then none
    else
      (btWs (lazyCapD dollarLA) ((sep.drop 1).reverse) (t1.dropWhile sepChar)).map
        fun p => pyStrip p.1

/-- `extract_allergen` of the source: the three patterns in order. -/
def extract_allergen (t : List Char) : Option (List Char) :=
  match searchAt matchAllergenStar t with
  | some v => some v
  | none =>
    match searchAt (matchAllergenSep "注意".data) t with
    | some v => some v
    | none => searchAt (matchAllergenSep "アレルギー".data) t

/-! ### CSV adapter -/

/-- Header-hint scan `re.search(r"項目|field|key|name", ·, re.IGNORECASE)`. -/
def csvHeaderHint (l : List Char) : Bool :=
  let ll := l.map toLowerCI
  isSubstr "項目".data ll || isSubstr "field".data ll ||
  isSubstr "key".data ll || isSubstr "name".data ll

/-- The lower-cased nutrition variation set. -/
def NUTRITION_VARIATION_SET : List (List Char) :=
  (NUTRITION_VARIATIONS.foldr (fun p acc => p.2 ++ acc)
    ([] : List (List Char))).map (·.map toLowerCI)

/-- Delimiter detection: the delimiter among `, \t ; |` yielding the most
columns on the first line (first wins ties, starting from `,`/0). -/
def bestDelim (l : List Char) : Char × Nat :=
  [',', '\t', ';', '|'].foldl
    (fun acc d =>
      let n := (splitOnC d l).length
      if acc.2 < n then (d, n) else acc)
    (',', 0)

def startsMark : List Char → Bool
  | '■' :: _ => true
  | _ => false

/-- One CSV row to a text line: skipped when blank, a `#` comment, fewer
than two columns, or an empty key/value; nutrition-variation keys are
emitted bare, others block-marked. -/
def csvRowLine (delim : Char) (line : List Char) : Option (List Char) :=
  match pyStrip line with
  | [] => none
  | '#' :: _ => none
  | _ :: _ =>
    match (splitOnC delim line).map pyStrip with
    | key :: value :: _ =>
      if key = [] || value = [] then none
      else if NUTRITION_VARIATION_SET.contains (key.map toLowerCI) then
        some (key ++ ':' :: value)
      else some ('■' :: (key ++ ':' :: value))
    | _ => none

/-- Insert the synthetic nutrition header before the first bare line. -/
def insertNutriHeader : List (List Char) → List (List Char)
  | [] => []
  | l :: rest =>
    if startsMark l then l :: insertNutriHeader rest
    else "【栄養成分表示(100g当たり)】（推定値）".data :: l :: rest

/-- `parse_csv_flexible` of the source. -/
def parse_csv_flexible (t : List Char) : List Char :=
  let lines := (splitOnC '\n' t).filter fun l => !(pyStrip l).isEmpty
  match lines with
  | [] => t
  | first :: _ =>
    if (bestDelim first).2 < 2 then t
    else
      let rows := if csvHeaderHint first then lines.drop 1 else lines
      let textLines := rows.filterMap (csvRowLine (bestDelim first).1)
      if textLines = [] then t
      else if textLines.all startsMark then joinWith ['\n'] textLines
      else joinWith ['\n'] (insertNutriHeader textLines)

/-! ### Parser orchestrator -/

structure ParseLog where
  level : List Char
  message : List Char
  field : Option (List Char)
deriving DecidableEq

structure ProductInfo where
  product_name : Option (List Char) := none
  product_type : Option (List Char) := none
  ingredients : Option (List Char) := none
  content : Option (List Char) := none
  expiry : Option (List Char) := none
  storage : Option (List Char) := none
  seller : Option (List Char) := none
  manufacturer : Option (List Char) := none
  processor : Option (List Char) := none
  importer : Option (List Char) := none
  nutrition : List (List Char × List Char) := []
  allergen : Option (List Char) := none
  extra_fields : List (List Char × List Char) := []
deriving DecidableEq

/-- Python truthiness of `if value:` on an optional string: `None` and the
empty string are falsy. -/
def truthyOpt : Option (List Char) → Option (List Char)
  | some v => if v = [] then none else some v
  | none => none

def FIELD_KEYS : List (List Char) := FIELD_VARIATIONS.map (·.1)

/-- The per-field log entry of `FlexibleParser.parse`. -/
def fieldLog (key : List Char) (r : Option (List Char)) : ParseLog :=
  match truthyOpt r with
  | some v => ⟨"info".data, key ++ "を抽出: ".data ++ v.take 30 ++ "...".data, some key⟩
  | none => ⟨"warning".data, key ++ "が見つかりませんでした".data, some key⟩

/-- The normalization pipeline applied by `parse` before extraction. -/
def processedOf (t : List Char) : List Char :=
  merge_broken_lines (normalize_text (preprocess_extreme_cases t))

namespace FlexibleParser

/-- The single log entry of the empty-input short-circuit. -/
def emptyLog : ParseLog := ⟨"warning".data, "入力テキストが空です".data, none⟩

/-- `FlexibleParser.parse` of the source, returning the record and the
accumulated log list.  A total function: every Python operation it models
is total on its inputs, so the modelled parse never raises. -/
def parse (text : List Char) : ProductInfo × List ParseLog :=
  if pyStrip text = [] then ({}, [emptyLog])
  else
    let processed := processedOf text
    let fr := fun k => truthyOpt (extract_field_value processed k)
    let fieldLogs := FIELD_KEYS.map fun k => fieldLog k (extract_field_value processed k)
    let nutrition := convert_sodium_to_salt (extract_nutrition_flexible processed)
    let nutriLogs :=
      if nutrition = [] then
        [⟨"warning".data, "栄養成分が見つかりませんでした".data, some "nutrition".data⟩]
      else nutrition.map fun p =>
        (⟨"info".data, "栄養成分 ".data ++ p.1 ++ ": ".data ++ p.2,
          some ("nutrition.".data ++ p.1)⟩ : ParseLog)
    let allergen := extract_allergen processed
    let allergenLogs :=
      match allergen with
      | some a =>
        if a = [] then []
        else [(⟨"info".data, "注意書きを抽出: ".data ++ a.take 50 ++ "...".data,
                some "allergen".data⟩ : ParseLog)]
      | none => []
    let extra := extract_unknown_fields processed
    let extraLogs := extra.map fun p =>
      (⟨"info".data, "未知の項目『".data ++ p.1 ++ "』: ".data ++ p.2.take 30 ++ "...".data,
        some ("extra.".data ++ p.1)⟩ : ParseLog)
    ({ product_name := fr "product_name".data
       product_type := fr "product_type".data
       ingredients := fr "ingredients".data
       content := fr "content".data
       expiry := fr "expiry".data
       storage := fr "storage".data
       seller := fr "seller".data
       manufacturer := fr "manufacturer".data
       processor := fr "processor".data
       importer := fr "importer".data
       nutrition := nutrition
       allergen := allergen
       extra_fields := extra },
     fieldLogs ++ nutriLogs ++ allergenLogs ++ extraLogs)

end FlexibleParser

/-! ### Safety validator and orchestration -/

def MAX_INPUT_LENGTH : Nat := 100000

def DANGEROUS_PATTERNS : List (List Char) :=
  ["<script".data, "<iframe".data, "javascript:".data,
   "<object".data, "<embed".data, "onerror=".data]

/-- `validate_input_safety` of the source: error on oversized input, then
on the first dangerous pattern found in the lower-cased text. -/
def validate_input_safety (t : List Char) : Except (List Char) Unit :=
  if MAX_INPUT_LENGTH < t.length then
    Except.error "入力が長すぎます（最大100KB）".data
  else
    match DANGEROUS_PATTERNS.find? (fun p => isSubstr p (t.map toLowerCI)) with
    | some p => Except.error ("禁止されたパターン『".data ++ p ++ "』が含まれています".data)
    | none => Except.ok ()

/-- `process_input` of the source, restricted to its parsing core: the
safety validation runs first and a failure short-circuits before the CSV
adapter and before any extraction; otherwise the (optionally adapted) text
is parsed.  Returns the record, the logs and the working text. -/
def process_input (text ty : List Char) :
    Except (List Char) (ProductInfo × List ParseLog × List Char) :=
  match validate_input_safety text with
  | Except.error msg => Except.error msg
  | Except.ok _ =>
    let working := if ty = "csv".data then parse_csv_flexible text else text
    let pr := FlexibleParser.parse working
    Except.ok (pr.1, pr.2, working)

/-! ### Specification-side definitions

These definitions are used only to state properties; they are not part of
the embedded program. -/

/-- The matches of `FIELD_BLOCK_PATTERN` that survive the filters of
`extract_unknown_fields` (non-empty stripped label, not a known variation,
under 20 characters), with stripped label and value. -/
def unknownSurvivors (t : List Char) : List (List Char × List Char) :=
  (fieldBlockMatches t).filterMap fun p =>
    let nm := pyStrip p.1
    if nm = [] then none
    else if ALL_KNOWN_FIELD_NAMES.contains (nm.map toLowerCI) then none
    else if 20 ≤ nm.length then none
    else some (nm, pyStrip p.2)

/-- First-seen-order deduplication (`seen` accumulates emitted keys). -/
def dedupFirstAux (seen : List (List Char)) : List (List Char) → List (List Char)
  | [] => []
  | k :: rest =>
    if k ∈ seen then dedupFirstAux seen rest
    else k :: dedupFirstAux (k :: seen) rest

/-- The value of the last entry with key `k`, in document order. -/
def lastValue (k : List Char) : List (List Char × List Char) → Option (List Char)
  | [] => none
  | p :: rest =>
    match lastValue k rest with
    | some v => some v
    | none => if p.1 = k then some p.2 else none

def dedupFirst (l : List (List Char)) : List (List Char) := dedupFirstAux [] l

/-- No two adjacent ASCII spaces occur, assuming `prev` records whether the
preceding character was a space (the fixed points of the space-run
collapse). -/
def spRunOK (prev : Bool) : List Char → Bool
  | [] => true
  | c :: r =>
    if c = ' ' then
      if prev then false else spRunOK true r
    else spRunOK false r

/-- No three adjacent newlines occur, assuming `k` newlines immediately
precede (the fixed points of the newline-run collapse). -/
def nlRunOK (k : Nat) : List Char → Bool
  | [] => true
  | c :: r =>
    if c = '\n' then
      if 2 ≤ k then false else nlRunOK (k + 1) r
    else nlRunOK 0 r

end Gen

/-! ## Claim theorems -/

namespace Gen

/-- C1: the modelled `FlexibleParser.parse` is a total function (so parsing
always completes with a `ProductInfo` record and never raises), and on
empty or whitespace-only input it returns the record with all ten product
fields and the allergen absent and empty nutrition and unknown-field
mappings, the log list holding exactly one entry, of severity warning. -/
theorem parse_empty_input (t : List Char) (h : pyStrip t = []) :
    FlexibleParser.parse t =
      ({ product_name := none, product_type := none, ingredients := none,
         content := none, expiry := none, storage := none, seller := none,
         manufacturer := none, processor := none, importer := none,
         nutrition := [], allergen := none, extra_fields := [] },
       [⟨"warning".data, "入力テキストが空です".data, none⟩]) := by
  rw [FlexibleParser.parse, if_pos h]
  rfl

/-- Witness for C1 at the whitespace-only input `" \n\t "`. -/
theorem parse_empty_input_witness :
    FlexibleParser.parse " \n\t ".data =
      ({ product_name := none, product_type := none, ingredients := none,
         content := none, expiry := none, storage := none, seller := none,
         manufacturer := none, processor := none, importer := none,
         nutrition := [], allergen := none, extra_fields := [] },
       [⟨"warning".data, "入力テキストが空です".data, none⟩]) :=
  parse_empty_input " \n\t ".data (by decide)

/-- C3: `validate_input_safety` fails exactly on oversized input (more
than 100,000 characters) or when the lower-cased text contains one of the
six denylisted substrings; and `process_input` runs this check before the
CSV adapter and before parsing, so every input containing `<script` in any
letter case yields a validation failure and no extraction is performed
(the error branch carries no parse result at all). -/
theorem validate_input_safety_spec :
    (∀ t : List Char,
        (∃ m, validate_input_safety t = Except.error m) ↔
          (MAX_INPUT_LENGTH < t.length ∨
           ∃ p ∈ DANGEROUS_PATTERNS, isSubstr p (t.map toLowerCI) = true)) ∧
    (∀ t ty : List Char, isSubstr "<script".data (t.map toLowerCI) = true →
        ∃ m, process_input t ty = Except.error m) := by
  constructor
  · intro t
    unfold validate_input_safety
    by_cases hL : MAX_INPUT_LENGTH < t.length
    · rw [if_pos hL]
      exact ⟨fun _ => Or.inl hL, fun _ => ⟨_, rfl⟩⟩
    · rw [if_neg hL]
      cases hF : DANGEROUS_PATTERNS.find? (fun p => isSubstr p (t.map toLowerCI)) with
      | some p =>
        have hps := List.find?_some hF
        exact ⟨fun _ => Or.inr ⟨p, List.mem_of_find?_eq_some hF, hps⟩,
               fun _ => ⟨_, rfl⟩⟩
      | none =>
        constructor
        · rintro ⟨m, hm⟩; cases hm
        · rintro (h | ⟨p, hp, hsub⟩)
          · exact absurd h hL
          · exact absurd hsub (by simpa using List.find?_eq_none.mp hF p hp)
  · intro t ty h
    have hv : ∃ m, validate_input_safety t = Except.error m := by
      unfold validate_input_safety
      by_cases hL : MAX_INPUT_LENGTH < t.length
      · rw [if_pos hL]; exact ⟨_, rfl⟩
      · rw [if_neg hL]
        have hS : (DANGEROUS_PATTERNS.find? (fun p => isSubstr p (t.map toLowerCI))).isSome := by
          rw [List.find?_isSome]
          exact ⟨"<script".data, by decide, h⟩
        obtain ⟨p, hp⟩ := Option.isSome_iff_exists.mp hS
        rw [hp]
        exact ⟨_, rfl⟩
    obtain ⟨m, hm⟩ := hv
    refine ⟨m, ?_⟩
    unfold process_input
    rw [hm]

/-- Witness for C3 at the input `<SCRIPT>alert` (mixed case). -/
theorem validate_input_safety_spec_witness :
    ∃ m, process_input "<SCRIPT>alert".data "text".data = Except.error m :=
  validate_input_safety_spec.2 "<SCRIPT>alert".data "text".data (by decide)

/-- C2: when the nutrition mapping has a sodium entry and no salt entry and
the sodium value carries a leading number, `convert_sodium_to_salt`
appends a salt entry computed from the binary64 of that number —
multiplied by the double `2.54` and then divided by `1000` (each operation
correctly rounded, overflow giving `inf`) when the lower-cased value
contains `mg` or no `g` at all, and multiplied by `2.54` alone when it
contains `g` but not `mg` — formatted to one decimal place with a `g`
suffix; when a salt entry is present the mapping is unchanged; and the
full parse of `ナトリウム：118mg` yields a sodium entry `118mg` and the
derived salt entry exactly `0.3g`. -/
theorem convert_sodium_to_salt_spec :
    (∀ (nutrition : List (List Char × List Char)) (s numStr : List Char),
        nutrition.lookup "salt".data = none →
        nutrition.lookup "sodium".data = some s →
        leadingNumber s = some numStr →
        convert_sodium_to_salt nutrition =
          nutrition ++ [("salt".data,
            fmt1 (if isSubstr "mg".data (s.map toLowerCI) then
                    ddivN (dmul (floatOfNum numStr) dbl254) 1000
                  else if isSubstr "g".data (s.map toLowerCI) then
                    dmul (floatOfNum numStr) dbl254
                  else ddivN (dmul (floatOfNum numStr) dbl254) 1000)
              ++ "g".data)]) ∧
    (∀ nutrition : List (List Char × List Char),
        (nutrition.lookup "salt".data).isSome →
        convert_sodium_to_salt nutrition = nutrition) ∧
    ((FlexibleParser.parse "ナトリウム：118mg".data).1.nutrition =
      [("sodium".data, "118mg".data), ("salt".data, "0.3g".data)]) := by
  refine ⟨?_, ?_, by decide⟩
  · intro nutrition s numStr h1 h2 h3
    unfold convert_sodium_to_salt
    rw [h1]
    simp only [Option.isNone_none, if_true, h2, h3, sodiumDbl]
  · intro nutrition h
    unfold convert_sodium_to_salt
    rw [Option.isSome_iff_ne_none] at h
    simp only [Option.isNone_iff_eq_none, h, if_false]

/-- Witness for C2 on the mapping `[sodium ↦ 118mg]`. -/
theorem convert_sodium_to_salt_spec_witness :
    convert_sodium_to_salt [("sodium".data, "118mg".data)] =
      [("sodium".data, "118mg".data), ("salt".data, "0.3g".data)] := by
  have h := convert_sodium_to_salt_spec.1 [("sodium".data, "118mg".data)]
    "118mg".data "118".data (by decide) (by decide) (by decide)
  rw [h]
  decide

end Gen

namespace Gen

/-- C5 counterexample: in `a:1【a:2` the surviving unknown label `a` heads
two blocks, first with value `1`, then with value `2`; the resulting
mapping carries the value of the second (last) occurrence, not the first. -/
theorem unknown_fields_last_value_cex :
    fieldBlockMatches "a:1【a:2".data = [("a".data, "1".data), ("a".data, "2".data)] ∧
    extract_unknown_fields "a:1【a:2".data = [("a".data, "2".data)] ∧
    extract_unknown_fields "a:1【a:2".data ≠ [("a".data, "1".data)] := by
  refine ⟨by decide, by decide, by decide⟩

/-- C6 counterexample: parsing `■Ｑｚ:v1` yields the unknown-field key
`Qz`, which does not occur character-for-character anywhere in the original
input (the full-width `Ｑｚ` was rewritten by normalization before
unknown-field extraction). -/
theorem extra_field_key_not_in_input_cex :
    (FlexibleParser.parse "■Ｑｚ:v1".data).1.extra_fields =
      [("Qz".data, "v1".data)] ∧
    isSubstr "Qz".data "■Ｑｚ:v1".data = false := by
  constructor
  · decide
  · decide

/-- C8 counterexample: `normalize_text` does not leave the full-width colon
unchanged — it rewrites `：` to `:` (both through NFKC and through an
explicit replace). -/
theorem normalize_colon_cex :
    normalize_text "a：b".data = "a:b".data ∧ "a:b".data ≠ "a：b".data := by
  constructor
  · decide
  · decide

set_option maxRecDepth 40000 in
/-- C9: the CSV adapter output for
`項目名,値\n商品名,テスト商品\n名称,スイーツ\nエネルギー,120\n` skips the
header row and emits the two block-marked field lines followed by the
synthetic nutrition header immediately before the bare `エネルギー:120`
line; parsing that adapter output yields `product_name = テスト商品` and a
nutrition mapping containing an `energy` entry. -/
theorem csv_round_trip :
    parse_csv_flexible "項目名,値\n商品名,テスト商品\n名称,スイーツ\nエネルギー,120\n".data =
      "■商品名:テスト商品\n■名称:スイーツ\n【栄養成分表示(100g当たり)】（推定値）\nエネルギー:120".data ∧
    (FlexibleParser.parse (parse_csv_flexible
        "項目名,値\n商品名,テスト商品\n名称,スイーツ\nエネルギー,120\n".data)).1.product_name =
      some "テスト商品".data ∧
    ((FlexibleParser.parse (parse_csv_flexible
        "項目名,値\n商品名,テスト商品\n名称,スイーツ\nエネルギー,120\n".data)).1.nutrition.lookup
      "energy".data) = some "120".data := by
  refine ⟨by decide, by decide, by decide⟩

end Gen

namespace Gen

theorem splitOnC_ne_nil (sep : Char) (t : List Char) : splitOnC sep t ≠ [] := by
  cases t with
  | nil => simp [splitOnC]
  | cons c rest =>
    simp only [splitOnC]
    split <;> simp

theorem splitOnC_cons (sep c : Char) (rest : List Char) :
    splitOnC sep (c :: rest) =
      if c = sep then [] :: splitOnC sep rest
      else (c :: (splitOnC sep rest).headD []) :: (splitOnC sep rest).tail := rfl

theorem joinWith_cons_of_ne_nil (sep : List Char) (l : List Char)
    (ls : List (List Char)) (h : ls ≠ []) :
    joinWith sep (l :: ls) = l ++ sep ++ joinWith sep ls := by
  cases ls with
  | nil => exact absurd rfl h
  | cons a as => rfl

theorem joinWith_cons_head (sep : List Char) (c : Char) (h : List Char)
    (ls : List (List Char)) :
    joinWith sep ((c :: h) :: ls) = c :: joinWith sep (h :: ls) := by
  cases ls with
  | nil => rfl
  | cons a as => rfl

theorem bulletSubGo_spec (t : List Char) :
    (bulletSubGo true t =
      joinWith ['\n'] ((splitOnC '\n' t).map (List.dropWhile bulletChar))) ∧
    (∀ h tl, splitOnC '\n' t = h :: tl →
      bulletSubGo false t =
        joinWith ['\n'] (h :: tl.map (List.dropWhile bulletChar))) := by
  induction t with
  | nil =>
    refine ⟨rfl, ?_⟩
    intro h tl he
    simp only [splitOnC] at he
    cases he
    rfl
  | cons c rest ih =>
    obtain ⟨ih1, ih2⟩ := ih
    obtain ⟨rh, rt, hr⟩ := List.exists_cons_of_ne_nil (splitOnC_ne_nil '\n' rest)
    by_cases hc : c = '\n'
    · subst hc
      have hsplit : splitOnC '\n' ('\n' :: rest) = [] :: splitOnC '\n' rest := by
        rw [splitOnC_cons, if_pos rfl]
      have hmapne : (splitOnC '\n' rest).map (List.dropWhile bulletChar) ≠ [] := by
        rw [hr]; simp
      have hgo : bulletSubGo true ('\n' :: rest) = '\n' :: bulletSubGo true rest := by
        simp [bulletSubGo, bulletChar]
      have hgof : bulletSubGo false ('\n' :: rest) = '\n' :: bulletSubGo true rest := by
        simp [bulletSubGo, bulletChar]
      constructor
      · rw [hgo, hsplit, List.map_cons,
          joinWith_cons_of_ne_nil _ _ _ hmapne, ih1]
        rfl
      · intro h tl he
        rw [hsplit] at he
        injection he with he1 he2
        subst he1; subst he2
        rw [hgof, joinWith_cons_of_ne_nil _ _ _ hmapne, ih1]
        rfl
    · have hsplit : splitOnC '\n' (c :: rest) = (c :: rh) :: rt := by
        rw [splitOnC_cons, if_neg hc, hr]
        rfl
      by_cases hb : bulletChar c = true
      · have hgo : bulletSubGo true (c :: rest) = bulletSubGo true rest := by
          simp [bulletSubGo, hb, hc]
        have hgof : bulletSubGo false (c :: rest) = c :: bulletSubGo false rest := by
          simp [bulletSubGo, hb, hc]
        constructor
        · rw [hgo, hsplit, List.map_cons, List.dropWhile_cons_of_pos hb,
            ← List.map_cons, ← hr, ih1]
        · intro h tl he
          rw [hsplit] at he
          injection he with he1 he2
          subst he1; subst he2
          rw [hgof, joinWith_cons_head, ih2 rh rt hr]
      · have hgo : bulletSubGo true (c :: rest) = c :: bulletSubGo false rest := by
          simp [bulletSubGo, hb, hc]
        have hgof : bulletSubGo false (c :: rest) = c :: bulletSubGo false rest := by
          simp [bulletSubGo, hb, hc]
        constructor
        · rw [hgo, hsplit, List.map_cons, List.dropWhile_cons_of_neg hb,
            joinWith_cons_head, ih2 rh rt hr]
        · intro h tl he
          rw [hsplit] at he
          injection he with he1 he2
          subst he1; subst he2
          rw [hgof, joinWith_cons_head, ih2 rh rt hr]

/-- C10: the class of `BULLET_PATTERN` is the literal character set
backslash, `s`, katakana middle dot, hyphen, asterisk (no whitespace
escape), and the multiline-anchored substitution of
`preprocess_extreme_cases` removes from every line exactly the maximal
leading run of these characters: a line `storage:cool` loses its leading
`s`, while a bullet preceded by a leading space is left alone. -/
theorem bullet_pattern_literal_class :
    (∀ c, bulletChar c =
      (c = '\\' || c = 's' || c = '・' || c = '-' || c = '*')) ∧
    (∀ t, bulletSub t =
      joinWith ['\n'] ((splitOnC '\n' t).map (List.dropWhile bulletChar))) ∧
    preprocess_extreme_cases "storage:cool".data = "torage:cool".data ∧
    preprocess_extreme_cases " ・item".data = " ・item".data := by
  refine ⟨fun c => rfl, fun t => (bulletSubGo_spec t).1, by decide, by decide⟩

end Gen

namespace Gen

/-! ### Idempotence of normalization (C7) -/

theorem nfkcTable_lookup_mem {c v : Char}
    (h : nfkcTable.lookup c = some v) : (c, v) ∈ nfkcTable := by
  obtain ⟨l₁, l₂, he, -⟩ := List.lookup_eq_some_iff.mp h
  rw [he]
  exact List.mem_append.mpr (Or.inr (List.mem_cons_self _ _))

theorem nfkcTable_out_fresh :
    ∀ p ∈ nfkcTable, nfkcTable.lookup p.2 = none := by decide

theorem nfkcChar_idem (c : Char) : nfkcChar (nfkcChar c) = nfkcChar c := by
  unfold nfkcChar
  cases h : nfkcTable.lookup c with
  | none => simp [h]
  | some v =>
    simp only [h, Option.getD_some]
    rw [nfkcTable_out_fresh (c, v) (nfkcTable_lookup_mem h)]
    rfl

theorem mem_replaceChar {c a b : Char} {t : List Char}
    (h : c ∈ replaceChar a b t) : c = b ∨ c ∈ t := by
  obtain ⟨d, hd, he⟩ := List.mem_map.mp h
  by_cases hda : d = a
  · subst hda; simp only [if_pos rfl] at he; exact Or.inl he.symm
  · simp only [if_neg hda] at he; subst he; exact Or.inr hd

theorem replaceChar_eq_self {a b : Char} {t : List Char}
    (h : ∀ c ∈ t, c ≠ a) : replaceChar a b t = t := by
  unfold replaceChar
  rw [List.map_congr_left fun c hc => if_neg (h c hc)]
  exact List.map_id t

theorem not_mem_replaceChar {a b : Char} (hab : a ≠ b) (t : List Char) :
    a ∉ replaceChar a b t := by
  intro h
  obtain ⟨d, _, he⟩ := List.mem_map.mp h
  by_cases hda : d = a
  · subst hda; simp only [if_pos rfl] at he; exact hab he.symm
  · simp only [if_neg hda] at he; exact hda he

theorem mem_collapseSpacesGo {c : Char} :
    ∀ {t : List Char} {b : Bool}, c ∈ collapseSpacesGo b t → c ∈ t := by
  intro t
  induction t with
  | nil => intro b h; simp [collapseSpacesGo] at h
  | cons d r ih =>
    intro b h
    by_cases hd : d = ' '
    · subst hd
      cases b with
      | true =>
        simp only [collapseSpacesGo, if_pos rfl, if_pos rfl] at h
        exact List.mem_cons_of_mem _ (ih h)
      | false =>
        simp only [collapseSpacesGo, if_pos rfl] at h
        rcases List.mem_cons.mp h with h | h
        · exact h ▸ List.mem_cons_self _ _
        · exact List.mem_cons_of_mem _ (ih h)
    · simp only [collapseSpacesGo, if_neg hd] at h
      rcases List.mem_cons.mp h with h | h
      · exact h ▸ List.mem_cons_self _ _
      · exact List.mem_cons_of_mem _ (ih h)

theorem mem_collapseNewlinesGo {c : Char} :
    ∀ {t : List Char} {k : Nat}, c ∈ collapseNewlinesGo k t → c ∈ t := by
  intro t
  induction t with
  | nil => intro k h; simp [collapseNewlinesGo] at h
  | cons d r ih =>
    intro k h
    by_cases hd : d = '\n'
    · subst hd
      by_cases hk : 2 ≤ k
      · simp only [collapseNewlinesGo, if_pos rfl, if_pos hk] at h
        exact List.mem_cons_of_mem _ (ih h)
      · simp only [collapseNewlinesGo, if_pos rfl, if_neg hk] at h
        rcases List.mem_cons.mp h with h | h
        · exact h ▸ List.mem_cons_self _ _
        · exact List.mem_cons_of_mem _ (ih h)
    · simp only [collapseNewlinesGo, if_neg hd] at h
      rcases List.mem_cons.mp h with h | h
      · exact h ▸ List.mem_cons_self _ _
      · exact List.mem_cons_of_mem _ (ih h)

theorem mem_stripEnd {c : Char} :
    ∀ {t : List Char}, c ∈ stripEnd t → c ∈ t := by
  intro t
  induction t with
  | nil => intro h; simp [stripEnd] at h
  | cons d r ih =>
    intro h
    unfold stripEnd at h
    by_cases hcond : stripEnd r = [] ∧ pySpace d = true
    · rw [if_pos (by simp [hcond.1, hcond.2])] at h
      simp at h
    · rw [if_neg (by simpa [Bool.and_eq_true, List.eq_nil_iff_forall_not_mem] using
          fun h1 h2 => hcond ⟨by simpa [List.eq_nil_iff_forall_not_mem] using h1, h2⟩)] at h
      rcases List.mem_cons.mp h with h | h
      · exact h ▸ List.mem_cons_self _ _
      · exact List.mem_cons_of_mem _ (ih h)

theorem mem_pyStrip {c : Char} {t : List Char} (h : c ∈ pyStrip t) : c ∈ t :=
  (List.dropWhile_sublist pySpace).mem (mem_stripEnd h)

end Gen

namespace Gen

theorem spRunOK_mono : ∀ {l : List Char}, spRunOK true l = true → spRunOK false l = true := by
  intro l h
  cases l with
  | nil => rfl
  | cons c r =>
    by_cases hc : c = ' '
    · subst hc; simp [spRunOK] at h
    · simpa [spRunOK, hc] using h

theorem spRunOK_cons {c : Char} {r : List Char} {prev : Bool}
    (h : spRunOK prev (c :: r) = true) : spRunOK false r = true := by
  by_cases hc : c = ' '
  · subst hc
    cases prev with
    | true => simp [spRunOK] at h
    | false => exact spRunOK_mono (by simpa [spRunOK] using h)
  · simpa [spRunOK, hc] using h

theorem spRunOK_dropWhile (p : Char → Bool) :
    ∀ {l : List Char}, spRunOK false l = true → spRunOK false (l.dropWhile p) = true := by
  intro l
  induction l with
  | nil => intro h; exact h
  | cons c r ih =>
    intro h
    rw [List.dropWhile_cons]
    by_cases hp : p c = true
    · rw [if_pos hp]
      exact ih (spRunOK_cons h)
    · rw [if_neg hp]
      exact h

theorem nlRunOK_mono : ∀ {l : List Char} {j k : Nat}, j ≤ k →
    nlRunOK k l = true → nlRunOK j l = true := by
  intro l
  induction l with
  | nil => intro j k _ _; rfl
  | cons c r ih =>
    intro j k hjk h
    by_cases hc : c = '\n'
    · subst hc
      by_cases hk : 2 ≤ k
      · simp [nlRunOK, hk] at h
      · have hj : ¬ 2 ≤ j := fun hj2 => hk (hj2.trans hjk)
        simp only [nlRunOK, if_pos rfl, if_neg hk] at h
        simp only [nlRunOK, if_pos rfl, if_neg hj]
        exact ih (Nat.succ_le_succ hjk) h
    · simp only [nlRunOK, if_neg hc] at h ⊢
      exact h

theorem nlRunOK_cons {c : Char} {r : List Char} {k : Nat}
    (h : nlRunOK k (c :: r) = true) : nlRunOK 0 r = true := by
  by_cases hc : c = '\n'
  · subst hc
    by_cases hk : 2 ≤ k
    · simp [nlRunOK, hk] at h
    · simp only [nlRunOK, if_pos rfl, if_neg hk] at h
      exact nlRunOK_mono (Nat.zero_le _) h
  · simpa [nlRunOK, hc] using h

theorem nlRunOK_dropWhile (p : Char → Bool) :
    ∀ {l : List Char}, nlRunOK 0 l = true → nlRunOK 0 (l.dropWhile p) = true := by
  intro l
  induction l with
  | nil => intro h; exact h
  | cons c r ih =>
    intro h
    rw [List.dropWhile_cons]
    by_cases hp : p c = true
    · rw [if_pos hp]
      exact ih (nlRunOK_cons h)
    · rw [if_neg hp]
      exact h

theorem stripEnd_cons (c : Char) (r : List Char) :
    stripEnd (c :: r) =
      if (decide (stripEnd r = []) && pySpace c) = true then []
      else c :: stripEnd r := rfl

theorem spRunOK_cons_eq (prev : Bool) (c : Char) (r : List Char) :
    spRunOK prev (c :: r) =
      if c = ' ' then (if prev then false else spRunOK true r)
      else spRunOK false r := rfl

theorem nlRunOK_cons_eq (k : Nat) (c : Char) (r : List Char) :
    nlRunOK k (c :: r) =
      if c = '\n' then (if 2 ≤ k then false else nlRunOK (k + 1) r)
      else nlRunOK 0 r := rfl

theorem collapseSpacesGo_cons (prev : Bool) (c : Char) (r : List Char) :
    collapseSpacesGo prev (c :: r) =
      if c = ' ' then
        (if prev then collapseSpacesGo true r else ' ' :: collapseSpacesGo true r)
      else c :: collapseSpacesGo false r := rfl

theorem collapseNewlinesGo_cons (k : Nat) (c : Char) (r : List Char) :
    collapseNewlinesGo k (c :: r) =
      if c = '\n' then
        (if 2 ≤ k then collapseNewlinesGo k r
         else '\n' :: collapseNewlinesGo (k + 1) r)
      else c :: collapseNewlinesGo 0 r := rfl

theorem spRunOK_stripEnd :
    ∀ {l : List Char} {prev : Bool}, spRunOK prev l = true →
      spRunOK prev (stripEnd l) = true := by
  intro l
  induction l with
  | nil => intro prev h; exact h
  | cons c r ih =>
    intro prev h
    rw [stripEnd_cons]
    by_cases hcond : (decide (stripEnd r = []) && pySpace c) = true
    · rw [if_pos hcond]; rfl
    · rw [if_neg hcond, spRunOK_cons_eq]
      rw [spRunOK_cons_eq] at h
      by_cases hc : c = ' '
      · rw [if_pos hc] at h ⊢
        cases prev with
        | true => simp at h
        | false =>
          rw [if_neg (by simp)] at h ⊢
          exact ih h
      · rw [if_neg hc] at h ⊢
        exact ih h

theorem nlRunOK_stripEnd :
    ∀ {l : List Char} {k : Nat}, nlRunOK k l = true →
      nlRunOK k (stripEnd l) = true := by
  intro l
  induction l with
  | nil => intro k h; exact h
  | cons c r ih =>
    intro k h
    rw [stripEnd_cons]
    by_cases hcond : (decide (stripEnd r = []) && pySpace c) = true
    · rw [if_pos hcond]; rfl
    · rw [if_neg hcond, nlRunOK_cons_eq]
      rw [nlRunOK_cons_eq] at h
      by_cases hc : c = '\n'
      · rw [if_pos hc] at h ⊢
        by_cases hk : 2 ≤ k
        · rw [if_pos hk] at h; simp at h
        · rw [if_neg hk] at h ⊢
          exact ih h
      · rw [if_neg hc] at h ⊢
        exact ih h

theorem spRunOK_collapseSpacesGo :
    ∀ (l : List Char) (prev : Bool), spRunOK prev (collapseSpacesGo prev l) = true := by
  intro l
  induction l with
  | nil => intro prev; rfl
  | cons c r ih =>
    intro prev
    rw [collapseSpacesGo_cons]
    by_cases hc : c = ' '
    · subst hc
      rw [if_pos rfl]
      cases prev with
      | true =>
        rw [if_pos rfl]
        exact ih true
      | false =>
        rw [if_neg (by simp), spRunOK_cons_eq, if_pos rfl, if_neg (by simp)]
        exact ih true
    · rw [if_neg hc, spRunOK_cons_eq, if_neg hc]
      exact ih false

theorem nlRunOK_collapseNewlinesGo :
    ∀ (l : List Char) (k : Nat), nlRunOK k (collapseNewlinesGo k l) = true := by
  intro l
  induction l with
  | nil => intro k; rfl
  | cons c r ih =>
    intro k
    rw [collapseNewlinesGo_cons]
    by_cases hc : c = '\n'
    · subst hc
      rw [if_pos rfl]
      by_cases hk : 2 ≤ k
      · rw [if_pos hk]
        exact ih k
      · rw [if_neg hk, nlRunOK_cons_eq, if_pos rfl, if_neg hk]
        exact ih (k + 1)
    · rw [if_neg hc, nlRunOK_cons_eq, if_neg hc]
      exact ih 0

theorem collapseSpacesGo_of_spRunOK :
    ∀ {l : List Char} {prev : Bool}, spRunOK prev l = true →
      collapseSpacesGo prev l = l := by
  intro l
  induction l with
  | nil => intro prev _; rfl
  | cons c r ih =>
    intro prev h
    rw [spRunOK_cons_eq] at h
    rw [collapseSpacesGo_cons]
    by_cases hc : c = ' '
    · subst hc
      rw [if_pos rfl] at h ⊢
      cases prev with
      | true => simp at h
      | false =>
        rw [if_neg (by simp)] at h ⊢
        rw [ih h]
    · rw [if_neg hc] at h ⊢
      rw [ih h]

theorem collapseNewlinesGo_of_nlRunOK :
    ∀ {l : List Char} {k : Nat}, nlRunOK k l = true →
      collapseNewlinesGo k l = l := by
  intro l
  induction l with
  | nil => intro k _; rfl
  | cons c r ih =>
    intro k h
    rw [nlRunOK_cons_eq] at h
    rw [collapseNewlinesGo_cons]
    by_cases hc : c = '\n'
    · subst hc
      rw [if_pos rfl] at h ⊢
      by_cases hk : 2 ≤ k
      · rw [if_pos hk] at h; simp at h
      · rw [if_neg hk] at h ⊢
        rw [ih h]
    · rw [if_neg hc] at h ⊢
      rw [ih h]

theorem spRunOK_collapseNewlinesGo :
    ∀ {l : List Char} {k : Nat} {prev : Bool}, spRunOK prev l = true →
      (1 ≤ k → prev = false) → spRunOK prev (collapseNewlinesGo k l) = true := by
  intro l
  induction l with
  | nil => intro k prev _ _; rfl
  | cons c r ih =>
    intro k prev h hk
    rw [collapseNewlinesGo_cons]
    by_cases hc : c = '\n'
    · subst hc
      have hr : spRunOK false r = true := spRunOK_cons h
      rw [if_pos rfl]
      by_cases h2 : 2 ≤ k
      · have hp : prev = false := hk (Nat.le_of_succ_le h2)
        subst hp
        rw [if_pos h2]
        exact ih hr (fun _ => rfl)
      · rw [if_neg h2, spRunOK_cons_eq, if_neg (by intro hfalse; cases hfalse)]
        exact ih hr (fun _ => rfl)
    · rw [if_neg hc, spRunOK_cons_eq]
      rw [spRunOK_cons_eq] at h
      by_cases hsp : c = ' '
      · subst hsp
        rw [if_pos rfl] at h ⊢
        cases prev with
        | true => simp at h
        | false =>
          rw [if_neg (by simp)] at h ⊢
          exact ih h (fun h1 => absurd h1 (by decide))
      · rw [if_neg hsp] at h ⊢
        exact ih h (fun _ => rfl)

end Gen

namespace Gen

theorem stripEnd_idem : ∀ l : List Char, stripEnd (stripEnd l) = stripEnd l := by
  intro l
  induction l with
  | nil => rfl
  | cons c r ih =>
    rw [stripEnd_cons]
    by_cases h : (decide (stripEnd r = []) && pySpace c) = true
    · rw [if_pos h]; rfl
    · rw [if_neg h, stripEnd_cons, ih, if_neg h]

theorem stripEnd_head (l : List Char) :
    stripEnd l = [] ∨ (stripEnd l).head? = l.head? := by
  cases l with
  | nil => exact Or.inl rfl
  | cons c r =>
    rw [stripEnd_cons]
    by_cases h : (decide (stripEnd r = []) && pySpace c) = true
    · rw [if_pos h]; exact Or.inl rfl
    · rw [if_neg h]; exact Or.inr rfl

theorem dropWhile_eq_self_of_head (p : Char → Bool) (l : List Char)
    (h : ∀ c, l.head? = some c → p c = false) : l.dropWhile p = l := by
  cases l with
  | nil => rfl
  | cons c r =>
    rw [List.dropWhile_cons, if_neg]
    simp [h c rfl]

/-- The head of a stripped list is not whitespace. -/
theorem pyStrip_head (t : List Char) :
    ∀ c, (pyStrip t).head? = some c → pySpace c = false := by
  intro c hc
  unfold pyStrip at hc
  rcases stripEnd_head (t.dropWhile pySpace) with h | h
  · rw [h] at hc; cases hc
  · rw [h] at hc
    have := List.head?_dropWhile_not pySpace t
    rw [hc] at this
    exact this

theorem pyStrip_idem (t : List Char) : pyStrip (pyStrip t) = pyStrip t := by
  show stripEnd ((pyStrip t).dropWhile pySpace) = pyStrip t
  rw [dropWhile_eq_self_of_head pySpace (pyStrip t) (pyStrip_head t)]
  show stripEnd (stripEnd (t.dropWhile pySpace)) = stripEnd (t.dropWhile pySpace)
  exact stripEnd_idem _

/-- Character facts used by the idempotence argument. -/
theorem nfkcChar_colon : nfkcChar ':' = ':' := by decide

theorem nfkcChar_space : nfkcChar ' ' = ' ' := by decide

/-- All characters of a normalized text are NFKC-fixed. -/
theorem nfkc_fixed_normalize (t : List Char) :
    ∀ c ∈ normalize_text t, nfkcChar c = c := by
  intro c hc
  unfold normalize_text at hc
  have h1 := mem_collapseSpacesGo (mem_collapseNewlinesGo (mem_pyStrip hc))
  rcases mem_replaceChar h1 with h | h
  · rw [h]; exact nfkcChar_colon
  · rcases mem_replaceChar h with h' | h'
    · rw [h']; exact nfkcChar_space
    · rcases mem_replaceChar h' with h'' | h''
      · rw [h'']; exact nfkcChar_space
      · obtain ⟨d, _, he⟩ := List.mem_map.mp h''
        rw [← he]
        exact nfkcChar_idem d

/-- The folded characters are gone from a normalized text. -/
theorem normalize_no_folded (t : List Char) :
    '：' ∉ normalize_text t ∧ '\t' ∉ normalize_text t ∧ '　' ∉ normalize_text t := by
  refine ⟨fun hc => ?_, fun hc => ?_, fun hc => ?_⟩
  · unfold normalize_text at hc
    exact not_mem_replaceChar (by decide) _
      (mem_collapseSpacesGo (mem_collapseNewlinesGo (mem_pyStrip hc)))
  · unfold normalize_text at hc
    have h1 := mem_collapseSpacesGo (mem_collapseNewlinesGo (mem_pyStrip hc))
    rcases mem_replaceChar h1 with h | h
    · cases h
    · exact not_mem_replaceChar (by decide) _ h
  · unfold normalize_text at hc
    have h1 := mem_collapseSpacesGo (mem_collapseNewlinesGo (mem_pyStrip hc))
    rcases mem_replaceChar h1 with h | h
    · cases h
    · rcases mem_replaceChar h with h' | h'
      · cases h'
      · exact not_mem_replaceChar (by decide) _ h'

theorem normalize_spRunOK (t : List Char) :
    spRunOK false (normalize_text t) = true := by
  unfold normalize_text
  apply spRunOK_stripEnd
  apply spRunOK_dropWhile
  apply spRunOK_collapseNewlinesGo (spRunOK_collapseSpacesGo _ false)
  intro h1
  exact rfl

theorem normalize_nlRunOK (t : List Char) :
    nlRunOK 0 (normalize_text t) = true := by
  unfold normalize_text
  apply nlRunOK_stripEnd
  apply nlRunOK_dropWhile
  exact nlRunOK_collapseNewlinesGo _ 0

/-- C7: normalization is idempotent. -/
theorem normalize_text_idem (t : List Char) :
    normalize_text (normalize_text t) = normalize_text t := by
  have hfix := nfkc_fixed_normalize t
  obtain ⟨hcol, htab, hide⟩ := normalize_no_folded t
  have hsp := normalize_spRunOK t
  have hnl := normalize_nlRunOK t
  set o := normalize_text t with ho
  have e1 : nfkcNormalize o = o := by
    unfold nfkcNormalize
    rw [List.map_congr_left fun c hc => hfix c hc]
    exact List.map_id o
  have e2 : replaceChar '　' ' ' o = o :=
    replaceChar_eq_self fun c hc hc' => hide (hc' ▸ hc)
  have e3 : replaceChar '\t' ' ' o = o :=
    replaceChar_eq_self fun c hc hc' => htab (hc' ▸ hc)
  have e4 : replaceChar '：' ':' o = o :=
    replaceChar_eq_self fun c hc hc' => hcol (hc' ▸ hc)
  have e5 : collapseSpaces o = o := collapseSpacesGo_of_spRunOK hsp
  have e6 : collapseNewlines o = o := collapseNewlinesGo_of_nlRunOK hnl
  have e7 : pyStrip o = o := by
    rw [ho]
    exact pyStrip_idem (collapseNewlines (collapseSpaces (replaceChar '：' ':'
      (replaceChar '\t' ' ' (replaceChar '　' ' ' (nfkcNormalize t))))))
  calc normalize_text o
      = pyStrip (collapseNewlines (collapseSpaces (replaceChar '：' ':'
          (replaceChar '\t' ' ' (replaceChar '　' ' ' (nfkcNormalize o)))))) := rfl
    _ = o := by rw [e1, e2, e3, e4, e5, e6, e7]

end Gen

namespace Gen

/-- C8 (amended): normalization does not defer the colon conversion — it
folds every full-width colon `：` to `:` (none survives), just as it folds
ideographic spaces and tabs to half-width spaces; the extraction patterns
additionally accept both colon forms (`[:：]`). -/
theorem normalize_folds_colon_and_spaces :
    (∀ t : List Char,
      '：' ∉ normalize_text t ∧ '\t' ∉ normalize_text t ∧ '　' ∉ normalize_text t) ∧
    normalize_text "a：b".data = "a:b".data ∧
    normalize_text "a　b".data = "a b".data ∧
    normalize_text "a\tb".data = "a b".data ∧
    (∀ c, colonChar c = (c = ':' || c = '：')) :=
  ⟨normalize_no_folded, by decide, by decide, by decide, fun c => rfl⟩

end Gen

namespace Gen

/-! ### Unknown-field mapping: last value wins, first-seen key order (C5) -/

theorem lookup_isSome_iff_mem_keys (k : List Char) (d : List (List Char × List Char)) :
    (d.lookup k).isSome ↔ k ∈ d.map Prod.fst := by
  rw [List.lookup_isSome_iff]
  constructor
  · rintro ⟨p, hp, he⟩
    exact List.mem_map.mpr ⟨p, hp, (beq_iff_eq.mp he).symm⟩
  · intro h
    obtain ⟨p, hp, he⟩ := List.mem_map.mp h
    exact ⟨p, hp, beq_iff_eq.mpr he.symm⟩

theorem lookup_cons_eq (a : List Char) (p : List Char × List Char)
    (es : List (List Char × List Char)) :
    List.lookup a (p :: es) = if a = p.1 then some p.2 else List.lookup a es := by
  rw [List.lookup_cons]
  by_cases h : a = p.1
  · rw [show (a == p.1) = true from beq_iff_eq.mpr h, if_pos h]
  · rw [show (a == p.1) = false from beq_eq_false_iff_ne.mpr h, if_neg h]

theorem lookup_update (k v k' : List Char) (d : List (List Char × List Char)) :
    ((d.map fun p => if p.1 = k then (p.1, v) else p).lookup k') =
      if k' = k then (d.lookup k).map (fun _ => v) else d.lookup k' := by
  induction d with
  | nil => by_cases h : k' = k <;> simp [h]
  | cons p rest ih =>
    obtain ⟨pk, pv⟩ := p
    by_cases hp1 : pk = k <;> by_cases hk : k' = k <;> by_cases he : k' = pk <;>
      simp_all [lookup_cons_eq]

theorem lookup_dictInsert (k v k' : List Char) (d : List (List Char × List Char)) :
    (dictInsert k v d).lookup k' = if k' = k then some v else d.lookup k' := by
  unfold dictInsert
  by_cases hp : (d.lookup k).isSome
  · rw [if_pos hp, lookup_update]
    by_cases hk : k' = k
    · obtain ⟨a, ha⟩ := Option.isSome_iff_exists.mp hp
      rw [if_pos hk, if_pos hk, ha]
      rfl
    · rw [if_neg hk, if_neg hk]
  · rw [if_neg hp, List.lookup_append]
    by_cases hk : k' = k
    · subst hk
      rw [Option.not_isSome_iff_eq_none.mp hp, lookup_cons_eq, if_pos rfl,
        if_pos rfl]
      rfl
    · rw [lookup_cons_eq, if_neg hk, if_neg hk]
      simp

theorem keys_dictInsert (k v : List Char) (d : List (List Char × List Char)) :
    (dictInsert k v d).map Prod.fst =
      if (d.lookup k).isSome then d.map Prod.fst else d.map Prod.fst ++ [k] := by
  unfold dictInsert
  by_cases hp : (d.lookup k).isSome
  · rw [if_pos hp, if_pos hp, List.map_map]
    apply List.map_congr_left
    intro p _
    by_cases h : p.1 = k
    · simp [h]
    · simp [h]
  · rw [if_neg hp, if_neg hp, List.map_append]
    rfl

theorem lastValue_cons (k : List Char) (p : List Char × List Char)
    (rest : List (List Char × List Char)) :
    lastValue k (p :: rest) =
      match lastValue k rest with
      | some v => some v
      | none => if p.1 = k then some p.2 else none := rfl

theorem lookup_foldl_dictInsert (k : List Char) :
    ∀ (ls : List (List Char × List Char)) (acc : List (List Char × List Char)),
      ((ls.foldl (fun acc p => dictInsert p.1 p.2 acc) acc).lookup k) =
        (match lastValue k ls with
         | some v => some v
         | none => acc.lookup k) := by
  intro ls
  induction ls with
  | nil => intro acc; rfl
  | cons p rest ih =>
    intro acc
    rw [List.foldl_cons, ih, lastValue_cons]
    cases h : lastValue k rest with
    | some v => rfl
    | none =>
      show (dictInsert p.1 p.2 acc).lookup k = _
      rw [lookup_dictInsert]
      by_cases hpk : p.1 = k
      · rw [if_pos hpk.symm, if_pos hpk]
      · rw [if_neg (fun he => hpk he.symm), if_neg hpk]

theorem dedupFirstAux_congr :
    ∀ (l : List (List Char)) (s₁ s₂ : List (List Char)),
      (∀ x, x ∈ s₁ ↔ x ∈ s₂) → dedupFirstAux s₁ l = dedupFirstAux s₂ l := by
  intro l
  induction l with
  | nil => intro s₁ s₂ _; rfl
  | cons k rest ih =>
    intro s₁ s₂ hs
    unfold dedupFirstAux
    by_cases hk : k ∈ s₁
    · rw [if_pos hk, if_pos ((hs k).mp hk)]
      exact ih s₁ s₂ hs
    · rw [if_neg hk, if_neg (fun h => hk ((hs k).mpr h))]
      refine congrArg _ (ih _ _ ?_)
      intro x
      simp only [List.mem_cons]
      exact or_congr Iff.rfl (hs x)

theorem dedupFirstAux_cons (seen : List (List Char)) (k : List Char)
    (rest : List (List Char)) :
    dedupFirstAux seen (k :: rest) =
      if k ∈ seen then dedupFirstAux seen rest
      else k :: dedupFirstAux (k :: seen) rest := rfl

theorem keys_foldl_dictInsert :
    ∀ (ls : List (List Char × List Char)) (acc : List (List Char × List Char)),
      (ls.foldl (fun acc p => dictInsert p.1 p.2 acc) acc).map Prod.fst =
        acc.map Prod.fst ++ dedupFirstAux (acc.map Prod.fst) (ls.map Prod.fst) := by
  intro ls
  induction ls with
  | nil => intro acc; simp [dedupFirstAux]
  | cons p rest ih =>
    intro acc
    rw [List.foldl_cons, ih, List.map_cons, dedupFirstAux_cons]
    by_cases hmem : p.1 ∈ acc.map Prod.fst
    · have hs : (acc.lookup p.1).isSome = true :=
        (lookup_isSome_iff_mem_keys _ _).mpr hmem
      rw [keys_dictInsert, if_pos hs, if_pos hmem]
    · have hs : ¬(acc.lookup p.1).isSome = true :=
        fun h => hmem ((lookup_isSome_iff_mem_keys _ _).mp h)
      rw [keys_dictInsert, if_neg hs, if_neg hmem,
        dedupFirstAux_congr (rest.map Prod.fst)
          (acc.map Prod.fst ++ [p.1]) (p.1 :: acc.map Prod.fst)
          (fun x => by
            simp only [List.mem_append, List.mem_cons, List.mem_singleton]
            tauto),
        List.append_assoc]
      rfl

theorem extract_unknown_eq_fold (t : List Char) :
    extract_unknown_fields t =
      (unknownSurvivors t).foldl (fun acc p => dictInsert p.1 p.2 acc) [] := by
  unfold extract_unknown_fields unknownSurvivors
  generalize fieldBlockMatches t = ms
  generalize hacc : ([] : List (List Char × List Char)) = acc
  clear hacc
  induction ms generalizing acc with
  | nil => rfl
  | cons p rest ih =>
    rw [List.foldl_cons, List.filterMap_cons]
    by_cases h1 : pyStrip p.1 = []
    · simp only [h1, if_pos rfl]
      exact ih acc
    · rw [if_neg h1]
      by_cases h2 : ALL_KNOWN_FIELD_NAMES.contains ((pyStrip p.1).map toLowerCI) = true
      · simp only [h1, if_neg h1, h2, if_pos h2, if_true]
        exact ih acc
      · rw [if_neg h2]
        by_cases h3 : 20 ≤ (pyStrip p.1).length
        · simp only [h1, if_neg h1, h2, if_neg h2, h3, if_pos h3]
          exact ih acc
        · simp only [h1, if_neg h1, h2, if_neg h2, h3, if_neg h3, List.foldl_cons]
          exact ih _

/-- C5 (amended): when the same surviving unknown label heads two or more
blocks, `extract_unknown_fields` maps it to the value captured at its LAST
occurrence in document order (each later occurrence overwrites the stored
value in place), while the mapping's key order is first-seen order. -/
theorem unknown_fields_spec (t : List Char) :
    (∀ k, (extract_unknown_fields t).lookup k = lastValue k (unknownSurvivors t)) ∧
    (extract_unknown_fields t).map Prod.fst =
      dedupFirst ((unknownSurvivors t).map Prod.fst) := by
  constructor
  · intro k
    rw [extract_unknown_eq_fold, lookup_foldl_dictInsert]
    cases lastValue k (unknownSurvivors t) with
    | some v => rfl
    | none => rfl
  · rw [extract_unknown_eq_fold, keys_foldl_dictInsert]
    rfl

end Gen

namespace Gen

/-! ### Unknown-field labels are verbatim substrings of the processed text (C6) -/

theorem lazyCapD_split (la : List Char → Bool) :
    ∀ {l cap rest : List Char}, lazyCapD la l = some (cap, rest) →
      l = cap ++ rest := by
  intro l
  induction l with
  | nil => intro cap rest h; cases h
  | cons c r ih =>
    intro cap rest h
    unfold lazyCapD at h
    by_cases hla : la r = true
    · rw [if_pos hla] at h
      cases h
      rfl
    · rw [if_neg hla] at h
      cases hr : lazyCapD la r with
      | none => rw [hr] at h; cases h
      | some p =>
        rw [hr] at h
        cases h
        rw [List.cons_append, ← ih hr]

theorem btWs_lazyCapD_suffix (la : List Char → Bool) :
    ∀ {rws rest v r : List Char},
      btWs (lazyCapD la) rws rest = some (v, r) →
      r <:+ (rws.reverse ++ rest) := by
  intro rws
  induction rws with
  | nil =>
    intro rest v r h
    rw [lazyCapD_split la h]
    exact List.suffix_append v r
  | cons w rws' ih =>
    intro rest v r h
    unfold btWs at h
    cases hc : lazyCapD la rest with
    | some p =>
      rw [hc] at h
      cases h
      have : r <:+ rest := by
        rw [lazyCapD_split la hc]
        exact List.suffix_append v r
      exact this.trans (List.suffix_append _ _)
    | none =>
      rw [hc] at h
      have := ih h
      rw [List.reverse_cons, List.append_assoc]
      simpa using this

theorem wsCapture_lazyCapD_suffix (la : List Char → Bool) {t v r : List Char}
    (h : wsCapture (lazyCapD la) t = some (v, r)) : r <:+ t := by
  unfold wsCapture at h
  have := btWs_lazyCapD_suffix la h
  rwa [List.reverse_reverse, List.takeWhile_append_dropWhile] at this

theorem blockTail_parts :
    ∀ {l lab v r : List Char}, blockTail l = some (lab, v, r) →
      lab <+: l ∧ r <:+ l := by
  intro l
  induction l with
  | nil => intro lab v r h; cases h
  | cons c rest ih =>
    intro lab v r h
    unfold blockTail at h
    cases hatt : (match rest.dropWhile pySpace with
      | d :: t2 => if colonChar d then wsCapture (lazyCapD blockLA) t2 else none
      | [] => none) with
    | some p =>
      obtain ⟨pv, pr⟩ := p
      rw [hatt] at h
      cases h
      refine ⟨⟨rest, rfl⟩, ?_⟩
      cases hdw : rest.dropWhile pySpace with
      | nil =>
        rw [hdw] at hatt
        exact absurd hatt (by simp)
      | cons d t2 =>
        rw [hdw] at hatt
        dsimp only at hatt
        by_cases hcol : colonChar d = true
        · rw [if_pos hcol] at hatt
          have h1 := wsCapture_lazyCapD_suffix blockLA hatt
          have h2 : t2 <:+ rest := by
            have : d :: t2 <:+ rest := hdw ▸ List.dropWhile_suffix pySpace
            exact (List.suffix_cons d t2).trans this
          exact (h1.trans h2).trans (List.suffix_cons c rest)
        · rw [if_neg hcol] at hatt; cases hatt
    | none =>
      rw [hatt] at h
      cases hbt : blockTail rest with
      | none => rw [hbt] at h; cases h
      | some q =>
        obtain ⟨qlab, qv, qr⟩ := q
        rw [hbt, Option.map_some'] at h
        cases h
        obtain ⟨h1, h2⟩ := ih hbt
        exact ⟨(List.cons_prefix_cons).mpr ⟨rfl, h1⟩,
               h2.trans (List.suffix_cons c rest)⟩

theorem btBlock_parts :
    ∀ {rws rest lab v r : List Char},
      btBlock rws rest = some (lab, v, r) →
      lab <:+: (rws.reverse ++ rest) ∧ r <:+ (rws.reverse ++ rest) := by
  intro rws
  induction rws with
  | nil =>
    intro rest lab v r h
    obtain ⟨h1, h2⟩ := blockTail_parts h
    exact ⟨by simpa using h1.isInfix, by simpa using h2⟩
  | cons w rws' ih =>
    intro rest lab v r h
    unfold btBlock at h
    cases hbt : blockTail rest with
    | some q =>
      obtain ⟨qlab, qv, qr⟩ := q
      rw [hbt] at h
      cases h
      obtain ⟨h1, h2⟩ := blockTail_parts hbt
      exact ⟨(h1.isInfix).trans (List.suffix_append _ _).isInfix,
             h2.trans (List.suffix_append _ _)⟩
    | none =>
      rw [hbt] at h
      obtain ⟨h1, h2⟩ := ih h
      rw [List.reverse_cons, List.append_assoc]
      constructor
      · simpa using h1
      · simpa using h2

theorem matchBlockCore_parts {t lab v r : List Char}
    (h : matchBlockCore t = some (lab, v, r)) :
    lab <:+: t ∧ r <:+ t := by
  unfold matchBlockCore at h
  obtain ⟨h1, h2⟩ := btBlock_parts h
  rw [List.reverse_reverse, List.takeWhile_append_dropWhile] at h1 h2
  exact ⟨h1, h2⟩

theorem matchBlockAt_parts :
    ∀ {t lab v r : List Char}, matchBlockAt t = some (lab, v, r) →
      lab <:+: t ∧ r <:+ t := by
  intro t
  cases t with
  | nil => intro lab v r h; cases h
  | cons c rest =>
    intro lab v r h
    unfold matchBlockAt at h
    dsimp only at h
    by_cases hm : markerChar c = true
    · rw [if_pos hm] at h
      cases hc : matchBlockCore rest with
      | some q =>
        obtain ⟨qlab, qv, qr⟩ := q
        rw [hc] at h
        cases h
        obtain ⟨h1, h2⟩ := matchBlockCore_parts hc
        exact ⟨h1.trans (List.suffix_cons c rest).isInfix,
               h2.trans (List.suffix_cons c rest)⟩
      | none =>
        rw [hc] at h
        exact matchBlockCore_parts h
    · rw [if_neg hm] at h
      exact matchBlockCore_parts h

theorem searchBlock_parts :
    ∀ {t lab v r : List Char}, searchBlock t = some (lab, v, r) →
      lab <:+: t ∧ r <:+ t := by
  intro t
  induction t with
  | nil => intro lab v r h; cases h
  | cons c rest ih =>
    intro lab v r h
    unfold searchBlock at h
    cases hm : matchBlockAt (c :: rest) with
    | some q =>
      obtain ⟨qlab, qv, qr⟩ := q
      rw [hm] at h
      cases h
      exact matchBlockAt_parts hm
    | none =>
      rw [hm] at h
      obtain ⟨h1, h2⟩ := ih h
      exact ⟨h1.trans (List.suffix_cons c rest).isInfix,
             h2.trans (List.suffix_cons c rest)⟩

theorem finditerBlocks_label_inf :
    ∀ (fuel : Nat) (t lab v : List Char),
      (lab, v) ∈ finditerBlocks fuel t → lab <:+: t := by
  intro fuel
  induction fuel with
  | zero => intro t lab v h; cases h
  | succ n ih =>
    intro t lab v h
    unfold finditerBlocks at h
    cases hs : searchBlock t with
    | none => rw [hs] at h; cases h
    | some q =>
      obtain ⟨lab0, v0, rest⟩ := q
      rw [hs] at h
      obtain ⟨h1, h2⟩ := searchBlock_parts hs
      rcases List.mem_cons.mp h with he | hm
      · cases he
        exact h1
      · exact (ih rest lab v hm).trans h2.isInfix

theorem stripEnd_pref : ∀ l : List Char, stripEnd l <+: l := by
  intro l
  induction l with
  | nil => exact List.prefix_rfl
  | cons c r ih =>
    rw [stripEnd_cons]
    by_cases h : (decide (stripEnd r = []) && pySpace c) = true
    · rw [if_pos h]; exact List.nil_prefix
    · rw [if_neg h]; exact (List.cons_prefix_cons).mpr ⟨rfl, ih⟩

theorem pyStrip_inf (l : List Char) : pyStrip l <:+: l :=
  ((stripEnd_pref _).isInfix).trans (List.dropWhile_suffix pySpace).isInfix

theorem mem_dedupFirstAux :
    ∀ {l seen : List (List Char)} {x : List Char},
      x ∈ dedupFirstAux seen l → x ∈ l := by
  intro l
  induction l with
  | nil => intro seen x h; cases h
  | cons k rest ih =>
    intro seen x h
    rw [dedupFirstAux_cons] at h
    by_cases hk : k ∈ seen
    · rw [if_pos hk] at h
      exact List.mem_cons_of_mem _ (ih h)
    · rw [if_neg hk] at h
      rcases List.mem_cons.mp h with he | hm
      · exact he ▸ List.mem_cons_self _ _
      · exact List.mem_cons_of_mem _ (ih hm)

theorem mem_unknownSurvivors_keys {t k : List Char}
    (h : k ∈ (unknownSurvivors t).map Prod.fst) :
    k ≠ [] ∧ ∃ p ∈ fieldBlockMatches t, k = pyStrip p.1 := by
  obtain ⟨q, hq, hqk⟩ := List.mem_map.mp h
  obtain ⟨a, ha, hfa⟩ := List.mem_filterMap.mp hq
  dsimp only at hfa
  by_cases h1 : pyStrip a.1 = []
  · rw [if_pos h1] at hfa; cases hfa
  · rw [if_neg h1] at hfa
    by_cases h2 : ALL_KNOWN_FIELD_NAMES.contains ((pyStrip a.1).map toLowerCI) = true
    · rw [if_pos h2] at hfa; cases hfa
    · rw [if_neg h2] at hfa
      by_cases h3 : 20 ≤ (pyStrip a.1).length
      · rw [if_pos h3] at hfa; cases hfa
      · rw [if_neg h3] at hfa
        cases hfa
        exact ⟨hqk ▸ h1, a, ha, hqk ▸ rfl⟩

theorem parse_extra_fields {t : List Char} (h : ¬pyStrip t = []) :
    (FlexibleParser.parse t).1.extra_fields =
      extract_unknown_fields (processedOf t) := by
  rw [FlexibleParser.parse, if_neg h]

/-- C6 (amended): every key of the returned `extra_fields` mapping is
non-empty and occurs character-for-character as a contiguous substring of
the PROCESSED text (the label is inserted literally, without case-folding),
but the normalization passes that precede unknown-field extraction do
rewrite the original input, so a key need not occur in the raw input text
as supplied to `parse`. -/
theorem extra_field_keys_verbatim (t k : List Char)
    (hk : k ∈ ((FlexibleParser.parse t).1.extra_fields.map Prod.fst)) :
    k ≠ [] ∧ k <:+: processedOf t := by
  by_cases h : pyStrip t = []
  · rw [FlexibleParser.parse, if_pos h] at hk
    cases hk
  · rw [parse_extra_fields h] at hk
    rw [(unknown_fields_spec (processedOf t)).2] at hk
    have hk' := mem_dedupFirstAux hk
    obtain ⟨hne, p, hp, hkp⟩ := mem_unknownSurvivors_keys hk'
    refine ⟨hne, ?_⟩
    rw [hkp]
    obtain ⟨pk, pv⟩ := p
    exact (pyStrip_inf pk).trans
      (finditerBlocks_label_inf _ _ pk pv hp)

/-- Witness for C6 (amended) at the input `■Ｑｚ:v1` and key `Qz`. -/
theorem extra_field_keys_verbatim_witness :
    "Qz".data ≠ [] ∧ "Qz".data <:+: processedOf "■Ｑｚ:v1".data :=
  extra_field_keys_verbatim "■Ｑｚ:v1".data "Qz".data (by decide)

end Gen

namespace Gen

/-! ### Shape of nutrition values (C4) -/

end Gen

namespace Gen

end Gen
